import Mathlib

/-!
# Snapshot reader iterator of the in-memory store

A shallow embedding of `index/store/inmem/reader_iterator.go`: the iterator
that merges the live ordered container (a skip list) with the per-reader
overlay (`valueMap`, `prevKeysOfDeletedKeys`).

Go strings are byte sequences; they are embedded as lists of naturals and
compared byte-lexicographically.  A Go `[]byte` result that may be `nil` is an
`Option`.  A run-time panic of the Go code and a loop that does not finish
within the given fuel are separate outcomes of `Result`.
-/

namespace Inmem

/-- A Go string (keys and values of the store): a sequence of bytes. -/
abbrev Str := List Nat

/-- A Go byte slice as returned by the accessors: `none` is the nil slice. -/
abbrev Bytes := Option (List Nat)

/-- Go's `<` on strings: byte-lexicographic comparison. -/
def keyLt : Str → Str → Bool
  | [], [] => false
  | [], _ :: _ => true
  | _ :: _, [] => false
  | a :: as, b :: bs =>
    if a < b then true else if b < a then false else keyLt as bs

/-- The outcome of running a piece of the Go code. -/
inductive Result (α : Type) where
  | ok (a : α)
  | panic
  | outOfFuel
deriving DecidableEq, Repr

/-- The record kept in `readerData.valueMap` for a key that differs from
snapshot time. -/
structure OverlayRecord where
  value : Str
  newentry : Bool
  firstValue : Bool
  deleted : Bool
  prevKey : Str
deriving DecidableEq, Repr

/-- The overlay of a reader, `reader.readerData`: two Go maps, each embedded
as its lookup function (`none` when the key is absent). -/
structure ReaderData where
  valueMap : Str → Option OverlayRecord
  prevKeysOfDeletedKeys : Str → Option Str

/-- Modelled from the spec: the ordered container `store.list` (the skip list
package is not among the sources).  It is the chain of its entries in key
order. -/
abbrev SkipList := List (Str × Str)

/-- The entries of a skip list are strictly increasing in their keys. -/
def Sorted (l : SkipList) : Prop :=
  l.Pairwise (fun a b => keyLt a.1 b.1 = true)

instance (l : SkipList) : Decidable (Sorted l) :=
  inferInstanceAs (Decidable (l.Pairwise (fun (a b : Str × Str) => keyLt a.1 b.1 = true)))

/-- Modelled from the spec: the index of the first entry at or after offset
`n` whose key is not smaller than `k`. -/
def seekFrom (k : Str) : SkipList → Nat → Option Nat
  | [], _ => none
  | e :: es, n => if keyLt e.1 k then seekFrom k es (n + 1) else some n

/-- Modelled from the spec: `Seek(key) -> bool` of the ordered container
iterator.  The position is `none` before the first entry and `some p` on the
entry of index `p`.  The iterator lands on the smallest entry whose key is at
least `k`; when there is none it reports `false` and stays where it was. -/
def iterSeek (l : SkipList) (pos : Option Nat) (k : Str) : Option Nat × Bool :=
  match seekFrom k l 0 with
  | some j => (some j, true)
  | none => (pos, false)

/-- Modelled from the spec: `Next() -> bool` of the ordered container
iterator; a failed advance leaves the iterator where it was. -/
def iterNext (l : SkipList) (pos : Option Nat) : Option Nat × Bool :=
  let next := match pos with
    | none => 0
    | some p => p + 1
  if next < l.length then (some next, true) else (pos, false)

/-- Modelled from the spec: `Key()` of the ordered container iterator; `none`
is the nil key of an iterator that stands on no entry. -/
def iterKey (l : SkipList) (pos : Option Nat) : Option Str :=
  match pos with
  | none => none
  | some p => (l[p]?).map Prod.fst

/-- Modelled from the spec: `Value()` of the ordered container iterator. -/
def iterValue (l : SkipList) (pos : Option Nat) : Option Str :=
  match pos with
  | none => none
  | some p => (l[p]?).map Prod.snd

/-- The mutable fields of `ReaderIterator`; `store` and `reader` are passed
to the operations as the skip list and the overlay. -/
structure ReaderIterator where
  iterator : Option Nat
  valid : Bool
  fromReaderStorage : Bool
  currentKey : Str
deriving DecidableEq, Repr

/-- Go `newReaderIterator`: a fresh container iterator and zero-valued
fields. -/
def newReaderIterator : ReaderIterator :=
  { iterator := none, valid := false, fromReaderStorage := false, currentKey := [] }

/-- The loop of `Seek` on a deleted key (lines 61 to 68): follow `prevKey`
links while the key is not empty, remembering the last key visited. -/
def walkPrevKey (rd : ReaderData) : Nat → Str → Str → Option Str
  | 0, _, _ => none
  | fuel + 1, prevKey, prevKeyToSeek =>
    if prevKey = [] then some prevKeyToSeek
    else
      match rd.valueMap prevKey with
      | some r => walkPrevKey rd fuel r.prevKey prevKey
      | none => walkPrevKey rd fuel [] prevKey

/-- Go `ReaderIterator.Seek`.  The fuel bounds the loop over `prevKey`. -/
def Seek (l : SkipList) (rd : ReaderData) (fuel : Nat) (i : ReaderIterator) (k : Str) :
    Result ReaderIterator :=
  match rd.valueMap k with
  | some r =>
    if r.newentry then
      .ok { i with valid := false, fromReaderStorage := false }
    else if r.firstValue then
      .ok { iterator := (iterSeek l i.iterator []).1, valid := true,
            fromReaderStorage := true, currentKey := k }
    else if r.deleted then
      match walkPrevKey rd fuel r.prevKey [] with
      | none => .outOfFuel
      | some prevKeyToSeek =>
        .ok { iterator := (iterSeek l i.iterator prevKeyToSeek).1, valid := true,
              fromReaderStorage := true, currentKey := k }
    else
      .ok { iterator := (iterSeek l i.iterator k).1, valid := true,
            fromReaderStorage := true, currentKey := k }
  | none =>
    .ok { i with iterator := (iterSeek l i.iterator k).1,
                 valid := (iterSeek l i.iterator k).2,
                 fromReaderStorage := false }

/-- Go `ReaderIterator.SeekFirst`: `Seek` of the single zero byte. -/
def SeekFirst (l : SkipList) (rd : ReaderData) (fuel : Nat) (i : ReaderIterator) :
    Result ReaderIterator :=
  Seek l rd fuel i [0]

/-- Go `ReaderIterator.Next`, one unit of fuel per call of the function.
The type assertion on the container key panics on the nil key. -/
def nextLoop (l : SkipList) (rd : ReaderData) : Nat → ReaderIterator → Result ReaderIterator
  | 0, _ => .outOfFuel
  | fuel + 1, i =>
    match (if i.fromReaderStorage then some i.currentKey else iterKey l i.iterator) with
    | none => .panic
    | some key =>
      match rd.prevKeysOfDeletedKeys key with
      | some nextKey =>
        .ok { i with currentKey := nextKey, valid := true, fromReaderStorage := true }
      | none =>
        if (iterNext l i.iterator).2 then
          match iterKey l (iterNext l i.iterator).1 with
          | none => .panic
          | some key =>
            match rd.valueMap key with
            | some r =>
              if r.newentry || r.deleted then
                nextLoop l rd fuel { i with iterator := (iterNext l i.iterator).1 }
              else
                .ok { iterator := (iterNext l i.iterator).1, valid := true,
                      fromReaderStorage := true, currentKey := key }
            | none =>
              .ok { i with iterator := (iterNext l i.iterator).1, valid := true,
                           fromReaderStorage := false }
        else
          .ok { i with iterator := (iterNext l i.iterator).1, valid := false }

/-- Go `ReaderIterator.Next`.  Every recursive call follows a successful
advance of the container iterator, so one unit of fuel per entry and one more
are enough. -/
def Next (l : SkipList) (rd : ReaderData) (i : ReaderIterator) : Result ReaderIterator :=
  nextLoop l rd (l.length + 1) i

/-- Go `ReaderIterator.Key`. -/
def Key (l : SkipList) (i : ReaderIterator) : Result Bytes :=
  if i.valid && i.fromReaderStorage then .ok (some i.currentKey)
  else if i.valid then
    match iterKey l i.iterator with
    | some k => .ok (some k)
    | none => .panic
  else .ok none

/-- Go `ReaderIterator.Value`.  Reading the value of a missing overlay record
is a nil dereference. -/
def Value (l : SkipList) (rd : ReaderData) (i : ReaderIterator) : Result Bytes :=
  if i.valid && i.fromReaderStorage then
    match rd.valueMap i.currentKey with
    | some r => .ok (some r.value)
    | none => .panic
  else if i.valid then
    match iterValue l i.iterator with
    | some v => .ok (some v)
    | none => .panic
  else .ok none

/-- Go `ReaderIterator.Current`. -/
def Current (l : SkipList) (rd : ReaderData) (i : ReaderIterator) :
    Result (Bytes × Bytes × Bool) :=
  if i.valid && i.fromReaderStorage then
    match rd.valueMap i.currentKey with
    | some r => .ok (some i.currentKey, some r.value, true)
    | none => .panic
  else if i.valid then
    match Key l i, Value l rd i with
    | .ok k, .ok v => .ok (k, v, true)
    | _, _ => .panic
  else .ok (none, none, false)

/-- Go `ReaderIterator.Valid`. -/
def Valid (i : ReaderIterator) : Bool := i.valid

/-- Go `ReaderIterator.Close`: closes the container iterator and returns the
nil error, here `none`.  What `Close()` of the container iterator does to its
position is its own contract; it is the parameter `iterClose`. -/
def Close (iterClose : Option Nat → Option Nat) (i : ReaderIterator) :
    ReaderIterator × Option String :=
  ({ i with iterator := iterClose i.iterator }, none)

/-- What `Current()` returns after a call with outcome `r` and after each of
the following `n` calls of `Next()`; the observation stops at a call that does
not return normally. -/
def observe (l : SkipList) (rd : ReaderData) :
    Nat → Result ReaderIterator → List (Result (Bytes × Bytes × Bool))
  | _, .panic => [.panic]
  | _, .outOfFuel => [.outOfFuel]
  | 0, .ok i => [Current l rd i]
  | n + 1, .ok i => Current l rd i :: observe l rd n (Next l rd i)

/-- The overlay record of a key whose value was changed after snapshot
time. -/
def changedRecord (v : Str) : OverlayRecord :=
  { value := v, newentry := false, firstValue := false, deleted := false, prevKey := [] }

/-- The overlay record of a key inserted after snapshot time. -/
def newRecord (v : Str) : OverlayRecord :=
  { value := v, newentry := true, firstValue := false, deleted := false, prevKey := [] }

/-- The overlay record of a key deleted after snapshot time. -/
def deletedRecord (v : Str) (prev : Str) : OverlayRecord :=
  { value := v, newentry := false, firstValue := false, deleted := true, prevKey := prev }

/-- The container of the concrete scenario: `a` is `1x` now, `b` was
inserted, `c` was removed. -/
def scenarioList : SkipList := [([97], [49, 120]), ([98], [50])]

/-- The overlay of the concrete scenario, for the snapshot `a = 1`, `c = 3`. -/
def scenarioData : ReaderData where
  valueMap := fun k =>
    if k = [97] then some (changedRecord [49])
    else if k = [98] then some (newRecord [])
    else if k = [99] then some (deletedRecord [51] [97])
    else none
  prevKeysOfDeletedKeys := fun k => if k = [97] then some [99] else none

/-- The entries of the container that lie after the position of its
iterator: what `Next()` of the container iterator still has to visit. -/
def rest (l : SkipList) (pos : Option Nat) : SkipList :=
  match pos with
  | none => l
  | some p => l.drop (p + 1)

/-- The current key as `Next` determines it (lines 84 to 89): the stored key
when reading from the overlay, the key of the container iterator otherwise
(`none` is its nil key). -/
def curKey (l : SkipList) (i : ReaderIterator) : Option Str :=
  if i.fromReaderStorage then some i.currentKey else iterKey l i.iterator

/-- The keys that `Key()` reports now and after each of the following `n`
calls of `Next()`, up to the first point where `Valid()` is false; `none` when
one of the calls does not return normally. -/
def keysWhileValid (l : SkipList) (rd : ReaderData) : Nat → ReaderIterator → Option (List Str)
  | 0, i =>
    if i.valid then
      match Key l i with
      | .ok (some k) => some [k]
      | _ => none
    else some []
  | n + 1, i =>
    if i.valid then
      match Key l i with
      | .ok (some k) =>
        match Next l rd i with
        | .ok j => (keysWhileValid l rd n j).map (fun ks => k :: ks)
        | _ => none
      | _ => none
    else some []

/-- The `valueMap` of a run of deleted keys `ds` (keys with their
snapshot-time values) that follows the key `prev`: every key of the run has a
`deleted` record whose `prevKey` is the key before it. -/
def chainValueMap : Str → List (Str × Str) → Str → Option OverlayRecord
  | _, [], _ => none
  | prev, (d, v) :: ds, k =>
    if k = d then some (deletedRecord v prev) else chainValueMap d ds k

/-- The `prevKeysOfDeletedKeys` of a run of deleted keys `ds` that follows the
key `prev`: `prev` maps to the first key of the run and every key of the run
to the one after it. -/
def chainSkip : Str → List (Str × Str) → Str → Option Str
  | _, [], _ => none
  | prev, (d, _) :: ds, k => if k = prev then some d else chainSkip d ds k

/-- The overlay that consists exactly of the records and skip entries of one
run of deleted keys `ds` after the key `a`. -/
def chainData (a : Str) (ds : List (Str × Str)) : ReaderData :=
  { valueMap := chainValueMap a ds, prevKeysOfDeletedKeys := chainSkip a ds }

/-- The last key of the run `ds` that follows `a` (`a` itself for the empty
run). -/
def lastKey : Str → List (Str × Str) → Str
  | a, [] => a
  | _, (d, _) :: ds => lastKey d ds

/-- What `Current()` returns on a valid iterator that exposes the entry `e`. -/
def exposed (e : Str × Str) : Result (Bytes × Bytes × Bool) :=
  .ok (some e.1, some e.2, true)

/-- A container with the adjacent keys `a` and `c`, for the snapshot
`a`, `b`, `c` whose key `b` was deleted afterwards. -/
def gapList : SkipList := [([97], [49]), ([99], [51])]

/-- The overlay of `gapList`: the deleted key `b` after `a`. -/
def gapData : ReaderData := chainData [97] [([98], [50])]

/-- The overlay record of the smallest snapshot key, deleted after snapshot
time. -/
def firstDeletedRecord (v : Str) : OverlayRecord :=
  { value := v, newentry := false, firstValue := true, deleted := true, prevKey := [] }

/-- The overlay for the snapshot `a = 1`, `b = 2` whose smallest key `a` was
removed afterwards. -/
def firstDeletedData : ReaderData where
  valueMap := fun k => if k = [97] then some (firstDeletedRecord [49]) else none
  prevKeysOfDeletedKeys := fun _ => none

/-- The overlay without any record. -/
def emptyData : ReaderData where
  valueMap := fun _ => none
  prevKeysOfDeletedKeys := fun _ => none

/-- A container whose smallest key is the empty key, with the key `c`
after it. -/
def emptyKeyList : SkipList := [([], [48]), ([99], [51])]

/-- A container with the empty key and the key `d`, for a snapshot whose
keys `b` and `c` between them were deleted afterwards. -/
def emptyAnchorList : SkipList := [([], [48]), ([100], [52])]

/-- The overlay of `emptyAnchorList`: the deleted run `b`, `c` after the empty
key. -/
def emptyAnchorData : ReaderData := chainData [] [([98], [50]), ([99], [51])]

/-- A container with the adjacent keys `a` and `e`, for a snapshot whose keys
`b`, `c`, `d` between them were deleted afterwards. -/
def runList : SkipList := [([97], [49]), ([101], [53])]

/-- The overlay of `runList`: the deleted run `b`, `c`, `d` after `a`. -/
def runData : ReaderData := chainData [97] [([98], [50]), ([99], [51]), ([100], [52])]

/-- The container `b = 2`, `c = 3`, whose keys are all above the deleted
first key `a`. -/
def tailList : SkipList := [([98], [50]), ([99], [51])]

/-- The container `b = 2` that is left of the snapshot `a = 1`, `b = 2` once
`a` is removed. -/
def afterDeleteList : SkipList := [([98], [50])]

/-- A container that holds only the empty key. -/
def onlyEmptyKeyList : SkipList := [([], [50])]

/-- The triple `(Key(), Value(), true)` as a Go expression: it panics when
one of the two calls does. -/
def keyValueTrue : Result Bytes → Result Bytes → Result (Bytes × Bytes × Bool)
  | .ok k, .ok v => .ok (k, v, true)
  | _, _ => .panic

/-- The outcome of `n` further calls of `Next()`; a call that does not return
normally ends the run. -/
def nextTimes (l : SkipList) (rd : ReaderData) : Nat → Result ReaderIterator →
    Result ReaderIterator
  | 0, r => r
  | n + 1, .ok i => nextTimes l rd n (Next l rd i)
  | _ + 1, .panic => .panic
  | _ + 1, .outOfFuel => .outOfFuel

/-- A key that `Next` may expose when the container iterator lands on it: it
has no overlay record, or a record with both `newentry` and `deleted` unset. -/
def visible (rd : ReaderData) (k : Str) : Bool :=
  match rd.valueMap k with
  | none => true
  | some r => !(r.newentry || r.deleted)

/-- The value to expose for a container entry: the value of its overlay
record if it has one, the container's value otherwise. -/
def snapshotValue (rd : ReaderData) (e : Str × Str) : Str :=
  match rd.valueMap e.1 with
  | some r => r.value
  | none => e.2

/-- The chain of `prevKey` links that starts at `k`, in the words of the
spec: `ks` lists the non-empty keys visited, each key after the first is the
`prevKey` of the record of the one before it, and the last key has no overlay
record or a record with an empty `prevKey`.  The flags of the records are not
looked at. -/
def isPrevChain (rd : ReaderData) : Str → List Str → Bool
  | _, [] => false
  | k, x :: xs =>
    decide (x = k) && decide (k ≠ []) &&
      match rd.valueMap k with
      | none => decide (xs = [])
      | some r => if r.prevKey = [] then decide (xs = []) else isPrevChain rd r.prevKey xs

/-- A call of one of the positioning operations of the iterator. -/
inductive Call where
  | seekFirst
  | seek (k : Str)
  | next
deriving DecidableEq, Repr

/-- The outcome of one call on the iterator state `i`. -/
def call (l : SkipList) (rd : ReaderData) (fuel : Nat) (i : ReaderIterator) :
    Call → Result ReaderIterator
  | .seekFirst => SeekFirst l rd fuel i
  | .seek k => Seek l rd fuel i k
  | .next => Next l rd i

/-- The outcome of a sequence of calls; a call that does not return normally
ends the run. -/
def run (l : SkipList) (rd : ReaderData) (fuel : Nat) :
    ReaderIterator → List Call → Result ReaderIterator
  | i, [] => .ok i
  | i, c :: cs =>
    match call l rd fuel i c with
    | .ok j => run l rd fuel j cs
    | .panic => .panic
    | .outOfFuel => .outOfFuel

/-- The predicate "valid and `fromReaderStorage` imply that `valueMap` has a
record for `currentKey`". -/
def recordPresent (rd : ReaderData) (i : ReaderIterator) : Bool :=
  !(i.valid && i.fromReaderStorage) || (rd.valueMap i.currentKey).isSome

/-- A container whose middle key `b` was inserted after snapshot time. -/
def newMiddleList : SkipList := [([97], [49]), ([98], [50]), ([99], [51])]

/-- The overlay of `newMiddleList`: a `newentry` record for `b`, no skip
entries. -/
def newMiddleData : ReaderData where
  valueMap := fun k => if k = [98] then some (newRecord []) else none
  prevKeysOfDeletedKeys := fun _ => none

/-- An overlay whose `prevKey` chain from the deleted key `d` passes through
the record of `c`, which is not deleted, and the deleted `b`, and ends at `a`,
which has no record. -/
def mixedChainData : ReaderData where
  valueMap := fun k =>
    if k = [100] then some (deletedRecord [52] [99])
    else if k = [99] then
      some { value := [51], newentry := false, firstValue := false, deleted := false,
             prevKey := [98] }
    else if k = [98] then some (deletedRecord [50] [97])
    else none
  prevKeysOfDeletedKeys := fun _ => none

/-- An overlay whose `prevKey` links form a cycle: `c` and `b` are deleted
and each has the other as its `prevKey`. -/
def cycleData : ReaderData where
  valueMap := fun k =>
    if k = [99] then some (deletedRecord [51] [98])
    else if k = [98] then some (deletedRecord [50] [99])
    else none
  prevKeysOfDeletedKeys := fun _ => none

/-! ## The order on keys -/

theorem keyLt_irrefl (a : Str) : keyLt a a = false := by
  induction a with
  | nil => rfl
  | cons x xs ih => simp [keyLt, ih]

theorem keyLt_nil_right (a : Str) : keyLt a [] = false := by
  cases a <;> rfl

theorem keyLt_trans {a b c : Str} (hab : keyLt a b = true) (hbc : keyLt b c = true) :
    keyLt a c = true := by
  induction a generalizing b c with
  | nil =>
    cases b with
    | nil => simp [keyLt] at hab
    | cons y ys =>
      cases c with
      | nil => simp [keyLt] at hbc
      | cons z zs => simp [keyLt]
  | cons x xs ih =>
    cases b with
    | nil => simp [keyLt] at hab
    | cons y ys =>
      cases c with
      | nil => simp [keyLt] at hbc
      | cons z zs =>
        simp only [keyLt] at hab hbc ⊢
        by_cases hxy : x < y
        · by_cases hyz : y < z
          · have : x < z := by omega
            simp [this]
          · by_cases hzy : z < y
            · simp [hyz, hzy] at hbc
            · have : x < z := by omega
              simp [this]
        · by_cases hyx : y < x
          · simp [hxy, hyx] at hab
          · simp only [hxy, hyx, if_false] at hab
            have hxy' : x = y := by omega
            subst hxy'
            by_cases hxz : x < z
            · simp [hxz]
            · by_cases hzx : z < x
              · simp [hxz, hzx] at hbc
              · simp only [hxz, hzx, if_false] at hbc ⊢
                exact ih hab hbc

theorem keyLt_asymm {a b : Str} (hab : keyLt a b = true) : keyLt b a = false := by
  cases h : keyLt b a with
  | false => rfl
  | true =>
    have := keyLt_trans hab h
    rw [keyLt_irrefl] at this
    exact absurd this (by decide)

theorem keyLt_total {a b : Str} (hab : keyLt a b = false) (hba : keyLt b a = false) :
    a = b := by
  induction a generalizing b with
  | nil =>
    cases b with
    | nil => rfl
    | cons y ys => simp [keyLt] at hab
  | cons x xs ih =>
    cases b with
    | nil => simp [keyLt] at hba
    | cons y ys =>
      simp only [keyLt] at hab hba
      by_cases hxy : x < y
      · simp [hxy] at hab
      · by_cases hyx : y < x
        · simp [hyx] at hba
        · simp only [hxy, hyx, if_false] at hab hba
          have hxy' : x = y := by omega
          rw [hxy', ih hab hba]

theorem keyLt_ne {a b : Str} (hab : keyLt a b = true) : a ≠ b := by
  intro h
  rw [h, keyLt_irrefl] at hab
  exact absurd hab (by decide)

/-- Every non-empty key is at least the single zero byte. -/
theorem keyLt_zero_of_ne_nil {a : Str} (ha : a ≠ []) : keyLt a [0] = false := by
  cases a with
  | nil => exact absurd rfl ha
  | cons x xs =>
    cases xs <;> simp [keyLt]

/-! ## The container iterator -/

theorem seekFrom_of_get {l : SkipList} (hs : Sorted l) {p : Nat} {k v : Str}
    (hp : l[p]? = some (k, v)) (n : Nat) : seekFrom k l n = some (n + p) := by
  induction l generalizing p n with
  | nil => simp at hp
  | cons e es ih =>
    cases p with
    | zero =>
      simp at hp
      subst hp
      simp [seekFrom, keyLt_irrefl]
    | succ q =>
      simp at hp
      have hlt : keyLt e.1 k = true := by
        have hmem : (k, v) ∈ es := List.getElem?_mem hp
        exact (List.pairwise_cons.1 hs).1 _ hmem
      simp only [seekFrom, hlt, if_true]
      rw [ih (List.pairwise_cons.1 hs).2 hp (n + 1)]
      congr 1
      omega

theorem exists_get_of_mem {l : SkipList} {e : Str × Str} (h : e ∈ l) :
    ∃ p : Nat, l[p]? = some e := by
  obtain ⟨n, hn, rfl⟩ := List.mem_iff_getElem.1 h
  exact ⟨n, by simp [List.getElem?_eq_getElem hn]⟩

/-! ## Snapshot stability and the concrete scenario -/

/-- C1: snapshot stability fails on the code.  In the concrete scenario
(container `a = 1x`, `b = 2`, where `b` was inserted after snapshot time and
has a `newentry` record), `Seek("aa")` finds no overlay record for `aa`,
delegates to the container and lands on `b`: the iterator is valid and `Key()`
is the post-snapshot key `b`. -/
theorem C1_seek_lands_on_new_key :
    ∃ i, Seek scenarioList scenarioData 0 newReaderIterator [97, 97] = .ok i ∧
      Valid i = true ∧ Key scenarioList i = .ok (some [98]) ∧
      (scenarioData.valueMap [98]).map (fun r => r.newentry) = some true :=
  ⟨_, rfl, by decide, by decide, by decide⟩

/-- C2: in the concrete scenario `SeekFirst()` followed by `Next()` calls
exposes `("a","1x")`, then `("c","3")`, then the invalid result: the first
pair carries the container's current value `1x`, not the snapshot-time value
`1` of the overlay record of `a`. -/
theorem C2_scenario_exposes_updated_value :
    observe scenarioList scenarioData 2
        (SeekFirst scenarioList scenarioData 0 newReaderIterator) =
      [.ok (some [97], some [49, 120], true), .ok (some [99], some [51], true),
        .ok (none, none, false)] := by
  decide

/-! ## Seek -/

/-- C4: `Seek(k)` on a key whose overlay record has `newentry` set returns
without panic, leaves the iterator invalid, `Current()` is `(nil, nil, false)`,
`Key()` and `Value()` are nil, and the container iterator (as well as the
stored current key) is where it was. -/
theorem C4_seek_new_key_is_noop_failure (l : SkipList) (rd : ReaderData) (fuel : Nat)
    (i : ReaderIterator) (k : Str) (r : OverlayRecord)
    (hr : rd.valueMap k = some r) (hn : r.newentry = true) :
    ∃ j, Seek l rd fuel i k = .ok j ∧ Valid j = false ∧
      Current l rd j = .ok (none, none, false) ∧ Key l j = .ok none ∧
      Value l rd j = .ok none ∧ j.iterator = i.iterator ∧ j.currentKey = i.currentKey :=
  ⟨{ i with valid := false, fromReaderStorage := false },
    by simp only [Seek, hr, hn]; rfl, rfl, by simp [Current], by simp [Key],
    by simp [Value], rfl, rfl⟩

/-- C4 at a concrete input: `Seek("b")` in the scenario, from a position on
the first entry. -/
theorem C4_seek_new_key_is_noop_failure_witness :
    ∃ j, Seek scenarioList scenarioData 0 ⟨some 0, true, false, []⟩ [98] = .ok j ∧
      Valid j = false ∧ Current scenarioList scenarioData j = .ok (none, none, false) ∧
      Key scenarioList j = .ok none ∧ Value scenarioList scenarioData j = .ok none ∧
      j.iterator = some 0 ∧ j.currentKey = [] :=
  C4_seek_new_key_is_noop_failure scenarioList scenarioData 0 ⟨some 0, true, false, []⟩ [98]
    (newRecord []) (by decide) (by decide)

/-! ## Advancing -/

theorem rest_sorted {l : SkipList} (hs : Sorted l) (pos : Option Nat) :
    Sorted (rest l pos) := by
  cases pos with
  | none => exact hs
  | some p => exact List.Pairwise.sublist (List.drop_sublist _ _) hs

theorem mem_of_mem_rest {l : SkipList} {pos : Option Nat} {e : Str × Str}
    (h : e ∈ rest l pos) : e ∈ l := by
  cases pos with
  | none => exact h
  | some p => exact List.mem_of_mem_drop h

theorem rest_length_le (l : SkipList) (pos : Option Nat) :
    (rest l pos).length ≤ l.length := by
  cases pos with
  | none => exact Nat.le_refl _
  | some p => simp [rest]

theorem iterNext_of_rest_nil {l : SkipList} {pos : Option Nat} (h : rest l pos = []) :
    iterNext l pos = (pos, false) := by
  cases pos with
  | none =>
    simp only [rest] at h
    subst h
    rfl
  | some p =>
    have hle : l.length ≤ p + 1 := List.drop_eq_nil_iff.1 h
    have : ¬ (p + 1 < l.length) := by omega
    simp [iterNext, this]

theorem iterNext_of_rest_cons {l : SkipList} {pos : Option Nat} {e : Str × Str}
    {es : SkipList} (h : rest l pos = e :: es) :
    ∃ q, iterNext l pos = (some q, true) ∧ l[q]? = some e ∧ rest l (some q) = es := by
  cases pos with
  | none =>
    simp only [rest] at h
    subst h
    exact ⟨0, by simp [iterNext], by simp, by simp [rest]⟩
  | some p =>
    simp only [rest] at h
    have hlt : p + 1 < l.length := by
      by_contra hc
      rw [List.drop_eq_nil_of_le (by omega)] at h
      exact absurd h (by simp)
    rw [List.drop_eq_getElem_cons hlt] at h
    injection h with h1 h2
    refine ⟨p + 1, by simp [iterNext, hlt], ?_, ?_⟩
    · rw [List.getElem?_eq_getElem hlt, h1]
    · simpa [rest] using h2

/-- One call of `Next` from a state whose current key `K` is below every
entry that the container iterator has still to visit: the call returns, and
when the iterator is valid afterwards its current key is above `K` and again
below every entry still to visit. -/
theorem nextLoop_increasing {l : SkipList} {rd : ReaderData} (hs : Sorted l)
    (hskip : ∀ K D, rd.prevKeysOfDeletedKeys K = some D →
      keyLt K D = true ∧ ∀ e ∈ l, ¬ (keyLt K e.1 = true ∧ keyLt D e.1 = false))
    (fuel : Nat) (i : ReaderIterator) (K : Str) (hK : curKey l i = some K)
    (hrest : ∀ e ∈ rest l i.iterator, keyLt K e.1 = true)
    (hfuel : (rest l i.iterator).length < fuel) :
    ∃ j, nextLoop l rd fuel i = .ok j ∧
      (j.valid = true → ∃ K', curKey l j = some K' ∧ keyLt K K' = true ∧
        ∀ e ∈ rest l j.iterator, keyLt K' e.1 = true) := by
  induction fuel generalizing i K with
  | zero => omega
  | succ fuel ih =>
    have hK' : (if i.fromReaderStorage then some i.currentKey else iterKey l i.iterator)
        = some K := hK
    cases hsk : rd.prevKeysOfDeletedKeys K with
    | some D =>
      refine ⟨{ i with currentKey := D, valid := true, fromReaderStorage := true }, ?_, ?_⟩
      · simp only [nextLoop, hK', hsk]
      · intro _
        refine ⟨D, by simp [curKey], (hskip K D hsk).1, ?_⟩
        intro e he
        have h1 := hrest e he
        have h2 := (hskip K D hsk).2 e (mem_of_mem_rest he)
        cases h3 : keyLt D e.1 with
        | true => rfl
        | false => exact absurd ⟨h1, h3⟩ h2
    | none =>
      cases hr : rest l i.iterator with
      | nil =>
        refine ⟨{ i with valid := false }, ?_, ?_⟩
        · simp only [nextLoop, hK', hsk, iterNext_of_rest_nil hr]
          rfl
        · intro h
          simp at h
      | cons e es =>
        obtain ⟨q, hq, hget, hrest'⟩ := iterNext_of_rest_cons hr
        have hkey : iterKey l (some q) = some e.1 := by simp [iterKey, hget]
        have hKe : keyLt K e.1 = true := hrest e (by rw [hr]; exact List.mem_cons_self _ _)
        have hsorted : ∀ e' ∈ es, keyLt e.1 e'.1 = true := by
          have := rest_sorted hs i.iterator
          rw [hr] at this
          exact (List.pairwise_cons.1 this).1
        cases hv : rd.valueMap e.1 with
        | none =>
          refine ⟨{ i with iterator := some q, valid := true, fromReaderStorage := false },
            ?_, ?_⟩
          · simp only [nextLoop, hK', hsk, hq, hkey, hv]
            rfl
          · intro _
            refine ⟨e.1, by simp [curKey, hkey], hKe, ?_⟩
            intro e' he'
            rw [hrest'] at he'
            exact hsorted e' he'
        | some r =>
          by_cases hinv : (r.newentry || r.deleted) = true
          · have hstep : nextLoop l rd (fuel + 1) i =
                nextLoop l rd fuel { i with iterator := some q } := by
              simp only [nextLoop, hK', hsk, hq, hkey, hv, hinv]
              rfl
            have hlen : (rest l (some q)).length < fuel := by
              rw [hr] at hfuel
              rw [hrest']
              simp at hfuel
              omega
            by_cases hfrs : i.fromReaderStorage = true
            · have hK1 : curKey l { i with iterator := some q } = some K := by
                simp only [curKey, hfrs, if_true] at hK ⊢
                exact hK
              obtain ⟨j, hj, hprop⟩ := ih { i with iterator := some q } K hK1
                (by
                  intro e' he'
                  rw [hrest'] at he'
                  exact hrest e' (by rw [hr]; exact List.mem_cons_of_mem _ he'))
                hlen
              exact ⟨j, by rw [hstep]; exact hj, hprop⟩
            · have hfrs' : i.fromReaderStorage = false := by simpa using hfrs
              have hK1 : curKey l { i with iterator := some q } = some e.1 := by
                simp [curKey, hfrs', hkey]
              obtain ⟨j, hj, hprop⟩ := ih { i with iterator := some q } e.1 hK1
                (by
                  intro e' he'
                  rw [hrest'] at he'
                  exact hsorted e' he')
                hlen
              refine ⟨j, by rw [hstep]; exact hj, ?_⟩
              intro hvalid
              obtain ⟨K', h1, h2, h3⟩ := hprop hvalid
              exact ⟨K', h1, keyLt_trans hKe h2, h3⟩
          · have hinv' : (r.newentry || r.deleted) = false := by simpa using hinv
            refine ⟨{ iterator := some q, valid := true, fromReaderStorage := true,
                      currentKey := e.1 }, ?_, ?_⟩
            · simp only [nextLoop, hK', hsk, hq, hkey, hv, hinv']
              rfl
            · intro _
              refine ⟨e.1, by simp [curKey], hKe, ?_⟩
              intro e' he'
              rw [hrest'] at he'
              exact hsorted e' he'

theorem seekFrom_bound {k : Str} {l : SkipList} {n j : Nat} (h : seekFrom k l n = some j) :
    ∃ m, j = n + m ∧ m < l.length := by
  induction l generalizing n with
  | nil => simp [seekFrom] at h
  | cons e es ih =>
    simp only [seekFrom] at h
    by_cases hlt : keyLt e.1 k = true
    · simp only [hlt, if_true] at h
      obtain ⟨m, hm, hlen⟩ := ih h
      exact ⟨m + 1, by omega, by simp; omega⟩
    · simp only [hlt] at h
      simp at h
      exact ⟨0, by omega, by simp⟩

theorem rest_above_of_get {l : SkipList} (hs : Sorted l) {p : Nat} {e : Str × Str}
    (hp : l[p]? = some e) : ∀ e' ∈ rest l (some p), keyLt e.1 e'.1 = true := by
  obtain ⟨hlt, he⟩ := List.getElem?_eq_some.1 hp
  have hsub : Sorted (l.drop p) := List.Pairwise.sublist (List.drop_sublist _ _) hs
  unfold Sorted at hsub
  rw [List.drop_eq_getElem_cons hlt, he] at hsub
  exact (List.pairwise_cons.1 hsub).1

theorem Key_of_curKey {l : SkipList} {i : ReaderIterator} {K : Str}
    (hv : i.valid = true) (hK : curKey l i = some K) : Key l i = .ok (some K) := by
  unfold curKey at hK
  by_cases hf : i.fromReaderStorage = true
  · simp only [hf, if_true] at hK
    simp only [Key, hv, hf, Bool.and_self, if_true]
    injection hK with hK
    rw [hK]
  · have hf' : i.fromReaderStorage = false := by simpa using hf
    simp only [hf', Bool.false_eq_true, if_false] at hK
    simp [Key, hv, hf', hK]

theorem keysWhileValid_of_invalid (l : SkipList) (rd : ReaderData) (n : Nat)
    {i : ReaderIterator} (hv : i.valid = false) : keysWhileValid l rd n i = some [] := by
  cases n <;> simp [keysWhileValid, hv]

/-- The keys observed from a state whose current key is below every entry
still to visit are strictly increasing and start at the current key. -/
theorem keysWhileValid_increasing {l : SkipList} {rd : ReaderData} (hs : Sorted l)
    (hskip : ∀ K D, rd.prevKeysOfDeletedKeys K = some D →
      keyLt K D = true ∧ ∀ e ∈ l, ¬ (keyLt K e.1 = true ∧ keyLt D e.1 = false))
    (n : Nat) (i : ReaderIterator) (K : Str) (hv : i.valid = true)
    (hK : curKey l i = some K) (hrest : ∀ e ∈ rest l i.iterator, keyLt K e.1 = true) :
    ∃ ks, keysWhileValid l rd n i = some (K :: ks) ∧
      (K :: ks).Pairwise (fun a b => keyLt a b = true) := by
  induction n generalizing i K with
  | zero =>
    exact ⟨[], by simp [keysWhileValid, hv, Key_of_curKey hv hK], by simp⟩
  | succ n ih =>
    obtain ⟨j, hj, hprop⟩ := nextLoop_increasing hs hskip (l.length + 1) i K hK hrest
      (Nat.lt_succ_of_le (rest_length_le l i.iterator))
    have hnext : Next l rd i = .ok j := hj
    by_cases hjv : j.valid = true
    · obtain ⟨K', hK', hlt, hrest'⟩ := hprop hjv
      obtain ⟨ks, hks, hpw⟩ := ih j K' hjv hK' hrest'
      refine ⟨K' :: ks, by simp [keysWhileValid, hv, Key_of_curKey hv hK, hnext, hks], ?_⟩
      refine List.pairwise_cons.2 ⟨?_, hpw⟩
      intro a ha
      rcases List.mem_cons.1 ha with rfl | ha'
      · exact hlt
      · exact keyLt_trans hlt ((List.pairwise_cons.1 hpw).1 a ha')
    · have hjv' : j.valid = false := by simpa using hjv
      exact ⟨[], by simp [keysWhileValid, hv, Key_of_curKey hv hK, hnext,
        keysWhileValid_of_invalid l rd n hjv'], by simp⟩

/-- C5: over a sorted container, with no overlay record for the sentinel key
of `SeekFirst` and every entry `K -> D` of `prevKeysOfDeletedKeys` satisfying
`K < D` with no container key `k` such that `K < k <= D`, `SeekFirst()` and
every following `Next()` return normally, and the keys that `Key()` reports
after `SeekFirst()` and after each following `Next()`, up to the first point
where `Valid()` is false, are strictly increasing (pairwise, hence without a
repeated key). -/
theorem C5_keys_strictly_increasing (l : SkipList) (rd : ReaderData) (fuel : Nat)
    (i : ReaderIterator) (n : Nat) (hs : Sorted l) (h0 : rd.valueMap [0] = none)
    (hskip : ∀ K D, rd.prevKeysOfDeletedKeys K = some D →
      keyLt K D = true ∧ ∀ e ∈ l, ¬ (keyLt K e.1 = true ∧ keyLt D e.1 = false)) :
    ∃ j ks, SeekFirst l rd fuel i = .ok j ∧ keysWhileValid l rd n j = some ks ∧
      ks.Pairwise (fun a b => keyLt a b = true) := by
  cases hseek : seekFrom [0] l 0 with
  | none =>
    refine ⟨{ i with valid := false, fromReaderStorage := false }, [], ?_, ?_, by simp⟩
    · simp only [SeekFirst, Seek, h0, iterSeek, hseek]
    · exact keysWhileValid_of_invalid l rd n rfl
  | some p =>
    obtain ⟨m, hm, hlen⟩ := seekFrom_bound hseek
    have hp : l[p]? = some l[m] := by
      have : p = m := by omega
      subst this
      exact List.getElem?_eq_getElem hlen
    obtain ⟨ks, hks, hpw⟩ := keysWhileValid_increasing hs hskip n
      { i with iterator := some p, valid := true, fromReaderStorage := false } l[m].1 rfl
      (by simp [curKey, iterKey, hp]) (rest_above_of_get hs hp)
    refine ⟨_, _, ?_, hks, hpw⟩
    simp only [SeekFirst, Seek, h0, iterSeek, hseek]

/-- C5 at a concrete input: the container `a`, `c` with the deleted key `b`
between them. -/
theorem C5_keys_strictly_increasing_witness :
    ∃ j ks, SeekFirst gapList gapData 0 newReaderIterator = .ok j ∧
      keysWhileValid gapList gapData 3 j = some ks ∧
      ks.Pairwise (fun a b => keyLt a b = true) :=
  C5_keys_strictly_increasing gapList gapData 0 newReaderIterator 3 (by decide) (by decide)
    (by
      intro K D h
      by_cases hK : K = [97]
      · subst hK
        have hD : D = [98] := by
          simpa [gapData, chainData, chainSkip] using h.symm
        subst hD
        decide
      · simp [gapData, chainData, chainSkip, hK] at h)

/-! ## Single steps of `Next` and of the accessors -/

theorem Next_skip {l : SkipList} {rd : ReaderData} {i : ReaderIterator} {K D : Str}
    (hK : curKey l i = some K) (hsk : rd.prevKeysOfDeletedKeys K = some D) :
    Next l rd i =
      .ok { i with currentKey := D, valid := true, fromReaderStorage := true } := by
  have hK' : (if i.fromReaderStorage then some i.currentKey else iterKey l i.iterator)
      = some K := hK
  simp only [Next, nextLoop, hK', hsk]

theorem Next_advance_unmodified {l : SkipList} {rd : ReaderData} {i : ReaderIterator}
    {K : Str} {p : Nat} {e : Str × Str} (hK : curKey l i = some K)
    (hsk : rd.prevKeysOfDeletedKeys K = none) (hpos : i.iterator = some p)
    (he : l[p + 1]? = some e) (hv : rd.valueMap e.1 = none) :
    Next l rd i =
      .ok { i with iterator := some (p + 1), valid := true, fromReaderStorage := false } := by
  have hK' : (if i.fromReaderStorage then some i.currentKey else iterKey l i.iterator)
      = some K := hK
  obtain ⟨hlt, _⟩ := List.getElem?_eq_some.1 he
  have hnext : iterNext l i.iterator = (some (p + 1), true) := by
    simp [iterNext, hpos, hlt]
  have hkey : iterKey l (some (p + 1)) = some e.1 := by simp [iterKey, he]
  simp only [Next, nextLoop, hK', hsk, hnext, hkey, hv]
  rfl

theorem Next_at_end {l : SkipList} {rd : ReaderData} {i : ReaderIterator}
    {K : Str} (hK : curKey l i = some K)
    (hsk : rd.prevKeysOfDeletedKeys K = none) (hrest : rest l i.iterator = []) :
    Next l rd i = .ok { i with valid := false } := by
  have hK' : (if i.fromReaderStorage then some i.currentKey else iterKey l i.iterator)
      = some K := hK
  simp only [Next, nextLoop, hK', hsk, iterNext_of_rest_nil hrest]
  rfl

theorem Current_overlay {l : SkipList} {rd : ReaderData} {p : Option Nat} {k : Str}
    {r : OverlayRecord} (hr : rd.valueMap k = some r) :
    Current l rd ⟨p, true, true, k⟩ = exposed (k, r.value) := by
  simp [Current, hr, exposed]

theorem Current_container {l : SkipList} {rd : ReaderData} {p : Nat} {k : Str}
    {e : Str × Str} (he : l[p]? = some e) :
    Current l rd ⟨some p, true, false, k⟩ = exposed e := by
  simp [Current, Key, Value, iterKey, iterValue, he, exposed]

/-! ## Runs of deleted keys -/

theorem lastKey_append (a : Str) (pre : List (Str × Str)) (d v : Str) :
    lastKey a (pre ++ [(d, v)]) = d := by
  induction pre generalizing a with
  | nil => rfl
  | cons x xs ih =>
    obtain ⟨x1, x2⟩ := x
    simpa [lastKey] using ih x1

theorem lastKey_ge {a va : Str} {ds : List (Str × Str)} (hs : Sorted ((a, va) :: ds)) :
    lastKey a ds = a ∨ keyLt a (lastKey a ds) = true := by
  induction ds generalizing a va with
  | nil => exact Or.inl rfl
  | cons x xs ih =>
    obtain ⟨d, v⟩ := x
    have hpw := List.pairwise_cons.1 hs
    have had : keyLt a d = true := hpw.1 (d, v) (List.mem_cons_self _ _)
    rcases ih hpw.2 with h | h
    · exact Or.inr (by simpa [lastKey, h] using had)
    · exact Or.inr (by simpa [lastKey] using keyLt_trans had h)

theorem chainValueMap_none {a k : Str} {ds : List (Str × Str)}
    (h : ∀ x ∈ ds, x.1 ≠ k) : chainValueMap a ds k = none := by
  induction ds generalizing a with
  | nil => rfl
  | cons x xs ih =>
    obtain ⟨d, v⟩ := x
    have hne : ¬ k = d := fun hk => h (d, v) (List.mem_cons_self _ _) hk.symm
    simp only [chainValueMap, hne, if_false]
    exact ih (fun y hy => h y (List.mem_cons_of_mem _ hy))

theorem chainValueMap_split {a d v : Str} {pre post : List (Str × Str)}
    (h : ∀ x ∈ pre, x.1 ≠ d) :
    chainValueMap a (pre ++ (d, v) :: post) d = some (deletedRecord v (lastKey a pre)) := by
  induction pre generalizing a with
  | nil => simp [chainValueMap, lastKey]
  | cons x xs ih =>
    obtain ⟨d0, v0⟩ := x
    have hne : ¬ d = d0 := fun hk => h (d0, v0) (List.mem_cons_self _ _) hk.symm
    simp only [List.cons_append, chainValueMap, hne, if_false, lastKey]
    exact ih (fun y hy => h y (List.mem_cons_of_mem _ hy))

theorem chainSkip_split {a va : Str} (d v : Str) {pre : List (Str × Str)}
    (post : List (Str × Str)) (hs : Sorted ((a, va) :: pre)) :
    chainSkip a (pre ++ (d, v) :: post) (lastKey a pre) = some d := by
  induction pre generalizing a va with
  | nil => simp [chainSkip, lastKey]
  | cons x xs ih =>
    obtain ⟨d0, v0⟩ := x
    have hpw := List.pairwise_cons.1 hs
    have had : keyLt a d0 = true := hpw.1 (d0, v0) (List.mem_cons_self _ _)
    have hne : ¬ lastKey d0 xs = a := by
      intro heq
      rcases lastKey_ge hpw.2 with h | h
      · rw [h] at heq
        exact keyLt_ne had heq.symm
      · rw [heq] at h
        have := keyLt_asymm had
        rw [h] at this
        exact absurd this (by decide)
    simp only [List.cons_append, chainSkip, lastKey, hne, if_false]
    exact ih hpw.2

theorem chainSkip_last {a va : Str} {ds : List (Str × Str)} (hs : Sorted ((a, va) :: ds)) :
    chainSkip a ds (lastKey a ds) = none := by
  induction ds generalizing a va with
  | nil => rfl
  | cons x xs ih =>
    obtain ⟨d0, v0⟩ := x
    have hpw := List.pairwise_cons.1 hs
    have had : keyLt a d0 = true := hpw.1 (d0, v0) (List.mem_cons_self _ _)
    have hne : ¬ lastKey d0 xs = a := by
      intro heq
      rcases lastKey_ge hpw.2 with h | h
      · rw [h] at heq
        exact keyLt_ne had heq.symm
      · rw [heq] at h
        have := keyLt_asymm had
        rw [h] at this
        exact absurd this (by decide)
    simp only [chainSkip, lastKey, hne, if_false]
    exact ih hpw.2

theorem sorted_prefix {e : Str × Str} {pre post : List (Str × Str)}
    (h : Sorted (e :: (pre ++ post))) : Sorted (e :: pre) :=
  List.Pairwise.sublist ((List.sublist_append_left pre post).cons₂ e) h

theorem sorted_tail {e : Str × Str} {es : List (Str × Str)} (h : Sorted (e :: es)) :
    Sorted es :=
  (List.pairwise_cons.1 h).2

theorem ne_of_sorted_append {pre post : List (Str × Str)} (h : Sorted (pre ++ post))
    {x y : Str × Str} (hx : x ∈ pre) (hy : y ∈ post) : x.1 ≠ y.1 :=
  keyLt_ne ((List.pairwise_append.1 h).2.2 x hx y hy)

/-- From a state that exposes the deleted key `d` of the run `ds` with the
container iterator on the entry before `c`, the following calls of `Next`
expose the rest of the run and then `c`. -/
theorem observe_chain {l : SkipList} {p : Nat} {a va : Str} (c vc : Str)
    {ds : List (Str × Str)}
    (hc : l[p + 1]? = some (c, vc)) (hchain : Sorted ((a, va) :: (ds ++ [(c, vc)])))
    (post pre : List (Str × Str)) (d v : Str) (hsplit : ds = pre ++ (d, v) :: post) :
    observe l (chainData a ds) (post.length + 1) (.ok ⟨some p, true, true, d⟩) =
      exposed (d, v) :: (post.map exposed ++ [exposed (c, vc)]) := by
  have hsds : Sorted ((a, va) :: ds) := sorted_prefix hchain
  induction post generalizing pre d v with
  | nil =>
    have hvm : (chainData a ds).valueMap d = some (deletedRecord v (lastKey a pre)) := by
      show chainValueMap a ds d = _
      rw [hsplit]
      exact chainValueMap_split (fun x hx =>
        ne_of_sorted_append (hsplit ▸ sorted_tail hsds) hx (List.mem_cons_self _ _))
    have hlast : lastKey a ds = d := by rw [hsplit]; exact lastKey_append a pre d v
    have hsk : (chainData a ds).prevKeysOfDeletedKeys d = none := by
      have := chainSkip_last hsds
      rwa [hlast] at this
    have hvc : (chainData a ds).valueMap (c, vc).1 = none :=
      chainValueMap_none (fun x hx =>
        ne_of_sorted_append (sorted_tail hchain) hx (List.mem_singleton_self _))
    have hnext := Next_advance_unmodified (l := l) (i := ⟨some p, true, true, d⟩)
      (K := d) rfl hsk rfl hc hvc
    simp only [observe, hnext, List.map_nil, List.nil_append, List.length_nil]
    rw [Current_overlay hvm, Current_container hc]
    rfl
  | cons x post ih =>
    obtain ⟨d', v'⟩ := x
    have hvm : (chainData a ds).valueMap d = some (deletedRecord v (lastKey a pre)) := by
      show chainValueMap a ds d = _
      rw [hsplit]
      exact chainValueMap_split (fun x hx =>
        ne_of_sorted_append (hsplit ▸ sorted_tail hsds) hx (List.mem_cons_self _ _))
    have hsplit' : ds = (pre ++ [(d, v)]) ++ (d', v') :: post := by
      rw [hsplit]; simp
    have hsk : (chainData a ds).prevKeysOfDeletedKeys d = some d' := by
      show chainSkip a ds d = _
      have hpre : Sorted ((a, va) :: (pre ++ [(d, v)])) := by
        have := hsds
        rw [hsplit'] at this
        exact sorted_prefix this
      have := chainSkip_split d' v' post hpre
      rw [lastKey_append] at this
      rw [hsplit']
      exact this
    have hnext := Next_skip (l := l) (i := ⟨some p, true, true, d⟩) (K := d) rfl hsk
    have hrec := ih (pre ++ [(d, v)]) d' v' hsplit'
    simp only [List.length_cons, observe, hnext, List.map_cons, List.cons_append]
    rw [Current_overlay hvm]
    exact congrArg (fun t => exposed (d, v) :: t) hrec

/-- C6, as stated, fails when the smallest container key `a` is the empty
key: with the container `"" = 0`, `c = 3` and the deleted key `b = 2` between
them, `SeekFirst()` seeks the single zero byte, passes over the empty key and
exposes `c` first; `a` and `b` are never exposed. -/
theorem C6_fails_for_empty_first_key :
    Sorted emptyKeyList ∧
    Sorted (([], [48]) :: ([([98], [50])] ++ [([99], [51])])) ∧
    observe emptyKeyList (chainData [] [([98], [50])]) 2
        (SeekFirst emptyKeyList (chainData [] [([98], [50])]) 0 newReaderIterator) =
      [exposed ([99], [51]), .ok (none, none, false), .ok (none, none, false)] ∧
    observe emptyKeyList (chainData [] [([98], [50])]) 2
        (SeekFirst emptyKeyList (chainData [] [([98], [50])]) 0 newReaderIterator) ≠
      exposed ([], [48]) :: ([([98], [50])].map exposed ++ [exposed ([99], [51])]) :=
  ⟨by decide, by decide, by decide, by decide⟩

/-- C6 (amended): let `a < c` be the first two keys of the container, `a` not
the empty key, and let the overlay consist exactly of the deleted run
`d1 < ... < dn` (`n >= 1`) between them.  Then `SeekFirst()` exposes `a` with
its container value, the next `n` calls of `Next()` expose `(d1, v1)`, ...,
`(dn, vn)` in that order, and one more `Next()` exposes `c` with its container
value. -/
theorem C6_tombstone_chain_iteration (a va c vc : Str) (tl : SkipList)
    (ds : List (Str × Str)) (fuel : Nat) (i : ReaderIterator)
    (ha : a ≠ []) (hds : ds ≠ []) (hl : Sorted ((a, va) :: (c, vc) :: tl))
    (hchain : Sorted ((a, va) :: (ds ++ [(c, vc)]))) :
    observe ((a, va) :: (c, vc) :: tl) (chainData a ds) (ds.length + 1)
        (SeekFirst ((a, va) :: (c, vc) :: tl) (chainData a ds) fuel i) =
      exposed (a, va) :: (ds.map exposed ++ [exposed (c, vc)]) := by
  have _ := hl
  have hsds : Sorted ((a, va) :: ds) := sorted_prefix hchain
  have hza : keyLt a [0] = false := keyLt_zero_of_ne_nil ha
  have h0 : (chainData a ds).valueMap [0] = none :=
    chainValueMap_none (fun x hx h => by
      have := (List.pairwise_cons.1 hsds).1 x hx
      rw [h, hza] at this
      exact absurd this (by decide))
  have hseek : SeekFirst ((a, va) :: (c, vc) :: tl) (chainData a ds) fuel i =
      .ok ⟨some 0, true, false, i.currentKey⟩ := by
    simp only [SeekFirst, Seek, h0, iterSeek, seekFrom, hza]
    rfl
  cases ds with
  | nil => exact absurd rfl hds
  | cons x post =>
    obtain ⟨d, v⟩ := x
    have hsk : (chainData a ((d, v) :: post)).prevKeysOfDeletedKeys a = some d := by
      simp [chainData, chainSkip]
    have hnext := Next_skip (l := (a, va) :: (c, vc) :: tl)
      (i := ⟨some 0, true, false, i.currentKey⟩) (K := a) rfl hsk
    have hrec := observe_chain (l := (a, va) :: (c, vc) :: tl) (p := 0) c vc (by simp) hchain post []
      d v rfl
    rw [hseek]
    simp only [List.length_cons, observe, hnext]
    rw [Current_container (e := (a, va)) rfl]
    exact congrArg (fun t => exposed (a, va) :: t) hrec

/-- C6 at a concrete input: the container `a`, `c` with the deleted key `b`
between them. -/
theorem C6_tombstone_chain_iteration_witness :
    observe gapList gapData 2 (SeekFirst gapList gapData 0 newReaderIterator) =
      [exposed ([97], [49]), exposed ([98], [50]), exposed ([99], [51])] :=
  C6_tombstone_chain_iteration [97] [49] [99] [51] [] [([98], [50])] 0 newReaderIterator
    (by decide) (by decide) (by decide) (by decide)

/-- The walk over `prevKey` from a key of the deleted run that follows the
non-empty key `a` ends at `a`. -/
theorem walkPrevKey_chain {a va : Str} {ds : List (Str × Str)} (ha : a ≠ [])
    (hsds : Sorted ((a, va) :: ds)) (pre : List (Str × Str)) :
    ∀ (post : List (Str × Str)) (fuel : Nat) (x : Str), ds = pre ++ post →
      pre.length + 2 ≤ fuel →
      walkPrevKey (chainData a ds) fuel (lastKey a pre) x = some a := by
  induction pre using List.reverseRecOn with
  | nil =>
    intro post fuel x _ hfuel
    have hva : (chainData a ds).valueMap a = none :=
      chainValueMap_none (fun y hy h =>
        keyLt_ne ((List.pairwise_cons.1 hsds).1 y hy) h.symm)
    obtain ⟨f, rfl⟩ : ∃ f, fuel = f + 2 := ⟨fuel - 2, by simp at hfuel; omega⟩
    simp [walkPrevKey, lastKey, ha, hva]
  | append_singleton pre e ih =>
    intro post fuel x hsplit hfuel
    obtain ⟨d0, v0⟩ := e
    have hsplit' : ds = pre ++ (d0, v0) :: post := by rw [hsplit]; simp
    have hmem : (d0, v0) ∈ ds := by rw [hsplit']; simp
    have had : keyLt a d0 = true := (List.pairwise_cons.1 hsds).1 _ hmem
    have hd0 : d0 ≠ [] := by
      intro h
      rw [h, keyLt_nil_right] at had
      exact absurd had (by decide)
    have hvm : (chainData a ds).valueMap d0 = some (deletedRecord v0 (lastKey a pre)) := by
      show chainValueMap a ds d0 = _
      rw [hsplit']
      exact chainValueMap_split (fun y hy =>
        ne_of_sorted_append (hsplit' ▸ sorted_tail hsds) hy (List.mem_cons_self _ _))
    obtain ⟨f, rfl⟩ : ∃ f, fuel = f + 1 := ⟨fuel - 1, by omega⟩
    have hrec := ih ((d0, v0) :: post) f d0 hsplit' (by simp at hfuel; omega)
    rw [lastKey_append]
    simp only [walkPrevKey, hd0, if_false, hvm]
    exact hrec

/-- C7: with the container `"" = 0`, `d = 4` and the deleted run `b`, `c`
between its two adjacent keys, `Seek("c")` exposes `c`, but the walk over
`prevKey` goes from `c` to `b`, reads the empty `prevKey` of `b` (the container
key before the run) as the end of the chain and seeks the container to `b`,
which lands on `d`, a key after `c` and not before it; the following `Next()`
advances past `d` and leaves the iterator invalid, so `d` is skipped. -/
theorem C7_seek_deleted_anchor_skips_successor :
    Sorted emptyAnchorList ∧
    Sorted (([], [48]) :: ([([98], [50]), ([99], [51])] ++ [([100], [52])])) ∧
    observe emptyAnchorList emptyAnchorData 1
        (Seek emptyAnchorList emptyAnchorData 3 newReaderIterator [99]) =
      [exposed ([99], [51]), .ok (none, none, false)] ∧
    observe emptyAnchorList emptyAnchorData 1
        (Seek emptyAnchorList emptyAnchorData 3 newReaderIterator [99]) ≠
      [exposed ([99], [51]), exposed ([100], [52])] :=
  ⟨by decide, by decide, by decide, by decide⟩

/-- Where the anchor of a deleted run is right: let `a` and `c` be adjacent
keys of the sorted container, `a` not the empty key, and let the overlay
consist exactly of the deleted run `ds = pre ++ (d, v) :: post` that lies
strictly between them.  Then `Seek(d)` returns with the iterator valid and
`Key() = d`, and `Current()` observed after it and after each following
`Next()` is `(d, v)`, then the keys of `post` in order, then `c` with its
container value. -/
theorem seek_deleted_resumes_at_run (l : SkipList) (p : Nat) (a va c vc : Str)
    (pre post : List (Str × Str)) (d v : Str) (fuel : Nat) (i : ReaderIterator)
    (ha : a ≠ []) (hs : Sorted l) (hp : l[p]? = some (a, va))
    (hc : l[p + 1]? = some (c, vc))
    (hchain : Sorted ((a, va) :: ((pre ++ (d, v) :: post) ++ [(c, vc)])))
    (hfuel : pre.length + 2 ≤ fuel) :
    ∃ j, Seek l (chainData a (pre ++ (d, v) :: post)) fuel i d = .ok j ∧
      Valid j = true ∧ Key l j = .ok (some d) ∧
      observe l (chainData a (pre ++ (d, v) :: post)) (post.length + 1) (.ok j) =
        exposed (d, v) :: (post.map exposed ++ [exposed (c, vc)]) := by
  have hsds : Sorted ((a, va) :: (pre ++ (d, v) :: post)) := sorted_prefix hchain
  have hvm : (chainData a (pre ++ (d, v) :: post)).valueMap d =
      some (deletedRecord v (lastKey a pre)) :=
    chainValueMap_split (fun y hy =>
      ne_of_sorted_append (sorted_tail hsds) hy (List.mem_cons_self _ _))
  have hwalk := walkPrevKey_chain ha hsds pre ((d, v) :: post) fuel [] rfl hfuel
  have hseek : iterSeek l i.iterator a = (some p, true) := by
    simp [iterSeek, seekFrom_of_get hs hp 0]
  refine ⟨⟨some p, true, true, d⟩, ?_, rfl, ?_, ?_⟩
  · simp only [Seek, hvm, deletedRecord, hwalk, hseek]
    rfl
  · simp [Key]
  · exact observe_chain c vc hc hchain post pre d v rfl

/-- A run of three consecutive deleted keys `b`, `c`, `d`
between `a` and `e`; `Seek("c")` and then two calls of `Next()`. -/
theorem seek_deleted_resumes_at_run_example :
    ∃ j, Seek runList runData 3 newReaderIterator [99] = .ok j ∧
      Valid j = true ∧ Key runList j = .ok (some [99]) ∧
      observe runList runData 2 (.ok j) =
        [exposed ([99], [51]), exposed ([100], [52]), exposed ([101], [53])] :=
  seek_deleted_resumes_at_run runList 0 [97] [49] [101] [53] [([98], [50])]
    [([100], [52])] [99] [51] 3 newReaderIterator (by decide) (by decide) (by decide)
    (by decide) (by decide) (by decide)

/-! ## The deleted first key and `SeekFirst` -/

/-- C8: with the container `b = 2`, `c = 3` and the overlay record of the
deleted first key `a` (`firstValue` set, `newentry` unset, value `1`, no skip
entry), `Seek("a")` exposes `("a","1")`, but the container iterator is left on
its first entry `b`, so the following `Next()` advances past it and exposes
`("c","3")`: the smallest container key `b` is skipped. -/
theorem C8_next_after_first_key_seek_skips_smallest :
    observe tailList firstDeletedData 1
        (Seek tailList firstDeletedData 0 newReaderIterator [97]) =
      [exposed ([97], [49]), exposed ([99], [51])] := by
  decide

/-- C9: with the container `b = 2` and the overlay record of the removed
smallest snapshot key `a` (`deleted`, `firstValue`, value `1`, empty
`prevKey`), `SeekFirst()` followed by `Next()` calls exposes `("b","2")` and
then becomes invalid: `("a","1")` is never exposed. -/
theorem C9_seekFirst_misses_deleted_first_key :
    observe afterDeleteList firstDeletedData 2
        (SeekFirst afterDeleteList firstDeletedData 0 newReaderIterator) =
      [exposed ([98], [50]), .ok (none, none, false), .ok (none, none, false)] := by
  decide

/-- C10, as stated, fails for a container that holds the empty key: over the
container that holds only the empty key, with no overlay records,
`SeekFirst()` leaves the iterator invalid although the container is not
empty, and it differs from `Seek` of the empty key, which lands on that
entry. -/
theorem C10_fails_for_empty_key :
    Sorted onlyEmptyKeyList ∧
    SeekFirst onlyEmptyKeyList emptyData 0 newReaderIterator =
      .ok ⟨none, false, false, []⟩ ∧
    Seek onlyEmptyKeyList emptyData 0 newReaderIterator [] =
      .ok ⟨some 0, true, false, []⟩ :=
  ⟨by decide, by decide, by decide⟩

/-- C10 (amended): for every sorted container whose keys are non-empty byte
strings and every overlay with no records, `SeekFirst()` returns, `Valid()` is
true exactly when the container is non-empty, and then `Key()` is the
byte-lexicographically smallest key of the container and `Value()` its value;
on these containers `SeekFirst()` behaves as `Seek` of the empty key. -/
theorem C10_seekFirst_lands_on_first (l : SkipList) (rd : ReaderData) (fuel : Nat)
    (i : ReaderIterator) (hs : Sorted l) (hne : ∀ e ∈ l, e.1 ≠ [])
    (hrd : ∀ k, rd.valueMap k = none) :
    ∃ j, SeekFirst l rd fuel i = .ok j ∧ (Valid j = true ↔ l ≠ []) ∧
      (Valid j = true → ∃ e ∈ l, Key l j = .ok (some e.1) ∧
        Value l rd j = .ok (some e.2) ∧ ∀ x ∈ l, keyLt x.1 e.1 = false) ∧
      SeekFirst l rd fuel i = Seek l rd fuel i [] := by
  cases l with
  | nil =>
    refine ⟨{ i with valid := false, fromReaderStorage := false }, ?_, ?_, ?_, ?_⟩
    · simp only [SeekFirst, Seek, hrd, iterSeek, seekFrom]
    · simp [Valid]
    · intro h
      simp [Valid] at h
    · simp only [SeekFirst, Seek, hrd, iterSeek, seekFrom]
  | cons e es =>
    have hz : keyLt e.1 [0] = false :=
      keyLt_zero_of_ne_nil (hne e (List.mem_cons_self _ _))
    refine ⟨⟨some 0, true, false, i.currentKey⟩, ?_, ?_, ?_, ?_⟩
    · simp only [SeekFirst, Seek, hrd, iterSeek, seekFrom, hz]
      rfl
    · simp [Valid]
    · intro _
      refine ⟨e, List.mem_cons_self _ _, by simp [Key, iterKey],
        by simp [Value, iterValue], ?_⟩
      intro x hx
      rcases List.mem_cons.1 hx with rfl | hx'
      · exact keyLt_irrefl _
      · exact keyLt_asymm ((List.pairwise_cons.1 hs).1 x hx')
    · simp [SeekFirst, Seek, hrd, iterSeek, seekFrom, hz, keyLt_nil_right]

/-- C10 at a concrete input: the container `a = 1x`, `b = 2` without overlay
records. -/
theorem C10_seekFirst_lands_on_first_witness :
    ∃ j, SeekFirst scenarioList emptyData 0 newReaderIterator = .ok j ∧
      (Valid j = true ↔ scenarioList ≠ []) ∧
      (Valid j = true → ∃ e ∈ scenarioList, Key scenarioList j = .ok (some e.1) ∧
        Value scenarioList emptyData j = .ok (some e.2) ∧
        ∀ x ∈ scenarioList, keyLt x.1 e.1 = false) ∧
      SeekFirst scenarioList emptyData 0 newReaderIterator =
        Seek scenarioList emptyData 0 newReaderIterator [] :=
  C10_seekFirst_lands_on_first scenarioList emptyData 0 newReaderIterator (by decide)
    (by decide) (fun _ => rfl)

/-! ## Seek without an overlay record -/

theorem seekFrom_none {k : Str} {l : SkipList} {n : Nat} (h : seekFrom k l n = none) :
    ∀ e ∈ l, keyLt e.1 k = true := by
  induction l generalizing n with
  | nil => intro e he; simp at he
  | cons x xs ih =>
    simp only [seekFrom] at h
    by_cases hlt : keyLt x.1 k = true
    · simp only [hlt, if_true] at h
      intro e he
      rcases List.mem_cons.1 he with rfl | he'
      · exact hlt
      · exact ih h e he'
    · simp [hlt] at h

theorem seekFrom_least {k : Str} {l : SkipList} (hs : Sorted l) {n j : Nat}
    (h : seekFrom k l n = some j) :
    ∃ m e, j = n + m ∧ l[m]? = some e ∧ keyLt e.1 k = false ∧
      ∀ x ∈ l, keyLt x.1 k = false → keyLt x.1 e.1 = false := by
  induction l generalizing n with
  | nil => simp [seekFrom] at h
  | cons x xs ih =>
    simp only [seekFrom] at h
    by_cases hlt : keyLt x.1 k = true
    · simp only [hlt, if_true] at h
      obtain ⟨m, e, hj, hget, hge, hmin⟩ := ih (sorted_tail hs) h
      refine ⟨m + 1, e, by omega, by simpa using hget, hge, ?_⟩
      intro y hy hyk
      rcases List.mem_cons.1 hy with rfl | hy'
      · rw [hlt] at hyk
        exact absurd hyk (by decide)
      · exact hmin y hy' hyk
    · have hlt' : keyLt x.1 k = false := by simpa using hlt
      simp only [hlt', Bool.false_eq_true, if_false] at h
      injection h with h
      refine ⟨0, x, by omega, by simp, hlt', ?_⟩
      intro y hy _
      rcases List.mem_cons.1 hy with rfl | hy'
      · exact keyLt_irrefl _
      · exact keyLt_asymm ((List.pairwise_cons.1 hs).1 y hy')

/-- C11: `Seek(k)` on a key without overlay record delegates to the container.
It returns; `Valid()` is the result of the container iterator's seek, which is
true exactly when the (sorted) container holds some key `>= k`; the iterator
is marked as reading from the container; and when valid, `Key()` and `Value()`
are the key and value of the smallest container entry whose key is `>= k`. -/
theorem C11_seek_without_record_delegates (l : SkipList) (rd : ReaderData) (fuel : Nat)
    (i : ReaderIterator) (k : Str) (hs : Sorted l) (hnone : rd.valueMap k = none) :
    ∃ j, Seek l rd fuel i k = .ok j ∧
      Valid j = (iterSeek l i.iterator k).2 ∧
      j.iterator = (iterSeek l i.iterator k).1 ∧
      (Valid j = true ↔ ∃ e ∈ l, keyLt e.1 k = false) ∧
      j.fromReaderStorage = false ∧
      (Valid j = true → ∃ e ∈ l, keyLt e.1 k = false ∧
        (∀ x ∈ l, keyLt x.1 k = false → keyLt x.1 e.1 = false) ∧
        Key l j = .ok (some e.1) ∧ Value l rd j = .ok (some e.2)) := by
  refine ⟨{ i with iterator := (iterSeek l i.iterator k).1,
                   valid := (iterSeek l i.iterator k).2,
                   fromReaderStorage := false }, ?_, rfl, rfl, ?_, rfl, ?_⟩
  · simp only [Seek, hnone]
  · cases hseek : seekFrom k l 0 with
    | none =>
      have hall := seekFrom_none hseek
      simp only [Valid, iterSeek, hseek]
      constructor
      · intro h
        exact absurd h (by decide)
      · rintro ⟨e, he, hge⟩
        rw [hall e he] at hge
        exact absurd hge (by decide)
    | some p =>
      obtain ⟨m, e, _, hget, hge, _⟩ := seekFrom_least hs hseek
      simp only [Valid, iterSeek, hseek]
      exact ⟨fun _ => ⟨e, List.getElem?_mem hget, hge⟩, fun _ => by trivial⟩
  · cases hseek : seekFrom k l 0 with
    | none =>
      intro h
      simp [Valid, iterSeek, hseek] at h
    | some p =>
      obtain ⟨m, e, hj, hget, hge, hmin⟩ := seekFrom_least hs hseek
      have hpm : p = m := by omega
      subst hpm
      intro _
      refine ⟨e, List.getElem?_mem hget, hge, hmin, ?_, ?_⟩
      · simp [Key, iterSeek, hseek, iterKey, hget]
      · simp [Value, iterSeek, hseek, iterValue, hget]

/-- C11 at a concrete input: `Seek("aa")` over the container `a`, `b` without
overlay records. -/
theorem C11_seek_without_record_delegates_witness :
    ∃ j, Seek scenarioList emptyData 0 newReaderIterator [97, 97] = .ok j ∧
      Valid j = (iterSeek scenarioList newReaderIterator.iterator [97, 97]).2 ∧
      j.iterator = (iterSeek scenarioList newReaderIterator.iterator [97, 97]).1 ∧
      (Valid j = true ↔ ∃ e ∈ scenarioList, keyLt e.1 [97, 97] = false) ∧
      j.fromReaderStorage = false ∧
      (Valid j = true → ∃ e ∈ scenarioList, keyLt e.1 [97, 97] = false ∧
        (∀ x ∈ scenarioList, keyLt x.1 [97, 97] = false → keyLt x.1 e.1 = false) ∧
        Key scenarioList j = .ok (some e.1) ∧
        Value scenarioList emptyData j = .ok (some e.2)) :=
  C11_seek_without_record_delegates scenarioList emptyData 0 newReaderIterator [97, 97]
    (by decide) rfl

/-! ## Accessors and Close -/

/-- C12: in every state with `Valid()` false, whatever the stored key, the
`fromReaderStorage` flag and the container position are, `Current()` returns
`(nil, nil, false)` and `Key()` and `Value()` return nil; in every state with
`Valid()` true, `Current()` is `(Key(), Value(), true)`. -/
theorem C12_accessors_on_invalid_iterator (l : SkipList) (rd : ReaderData)
    (i : ReaderIterator) :
    (Valid i = false →
      Current l rd i = .ok (none, none, false) ∧ Key l i = .ok none ∧
        Value l rd i = .ok none) ∧
    (Valid i = true → Current l rd i = keyValueTrue (Key l i) (Value l rd i)) := by
  obtain ⟨pos, valid, frs, ck⟩ := i
  refine ⟨?_, ?_⟩
  · intro h
    simp only [Valid] at h
    subst h
    simp [Current, Key, Value]
  · intro h
    simp only [Valid] at h
    subst h
    cases frs with
    | true =>
      cases hr : rd.valueMap ck with
      | none => simp [Current, Key, Value, hr, keyValueTrue]
      | some r => simp [Current, Key, Value, hr, keyValueTrue]
    | false =>
      simp only [Current, Bool.and_false, Bool.false_eq_true, if_false, if_true]
      cases hk : Key l ⟨pos, true, false, ck⟩ <;>
        cases hv : Value l rd ⟨pos, true, false, ck⟩ <;> rfl

/-- C12 at a concrete input: an invalid state that still stores the key `a`,
the overlay flag and a container position, and the valid state on `c` of the
scenario. -/
theorem C12_accessors_on_invalid_iterator_witness :
    (Current scenarioList scenarioData ⟨some 1, false, true, [97]⟩ = .ok (none, none, false) ∧
      Key scenarioList ⟨some 1, false, true, [97]⟩ = .ok none ∧
      Value scenarioList scenarioData ⟨some 1, false, true, [97]⟩ = .ok none) ∧
    Current scenarioList scenarioData ⟨some 0, true, true, [99]⟩ =
      keyValueTrue (Key scenarioList ⟨some 0, true, true, [99]⟩)
        (Value scenarioList scenarioData ⟨some 0, true, true, [99]⟩) :=
  ⟨(C12_accessors_on_invalid_iterator scenarioList scenarioData
      ⟨some 1, false, true, [97]⟩).1 rfl,
   (C12_accessors_on_invalid_iterator scenarioList scenarioData
      ⟨some 0, true, true, [99]⟩).2 rfl⟩

/-- C14: `Close()` returns the nil error, and the validity flag, the
`fromReaderStorage` flag and the stored current key are the same after
`Close()` as before, also after a second `Close()`, whatever the container
iterator's own close does. -/
theorem C14_close_reports_success (iterClose : Option Nat → Option Nat)
    (i : ReaderIterator) :
    (Close iterClose i).2 = none ∧
    (Close iterClose i).1.valid = i.valid ∧
    (Close iterClose i).1.fromReaderStorage = i.fromReaderStorage ∧
    (Close iterClose i).1.currentKey = i.currentKey ∧
    (Close iterClose (Close iterClose i).1).2 = none ∧
    (Close iterClose (Close iterClose i).1).1.valid = i.valid ∧
    (Close iterClose (Close iterClose i).1).1.fromReaderStorage = i.fromReaderStorage ∧
    (Close iterClose (Close iterClose i).1).1.currentKey = i.currentKey :=
  ⟨rfl, rfl, rfl, rfl, rfl, rfl, rfl, rfl⟩

/-! ## Next -/

/-- C15: in every state, valid or not, whose current key `K` (the stored key
when reading from the overlay, the container iterator's key otherwise) has an
entry `K -> D` in `prevKeysOfDeletedKeys`, `Next()` returns with the iterator
valid, reading from the overlay, `Key() = D`, and the container iterator where
it was. -/
theorem C15_next_jumps_through_skip_entry (l : SkipList) (rd : ReaderData)
    (i : ReaderIterator) (K D : Str) (hK : curKey l i = some K)
    (hsk : rd.prevKeysOfDeletedKeys K = some D) :
    ∃ j, Next l rd i = .ok j ∧ Valid j = true ∧ j.fromReaderStorage = true ∧
      Key l j = .ok (some D) ∧ j.currentKey = D ∧ j.iterator = i.iterator :=
  ⟨{ i with currentKey := D, valid := true, fromReaderStorage := true },
    Next_skip hK hsk, rfl, rfl, by simp [Key], rfl, rfl⟩

/-- C15 at a concrete input: the scenario, from the invalid state that stands
on the container entry `a`. -/
theorem C15_next_jumps_through_skip_entry_witness :
    ∃ j, Next scenarioList scenarioData ⟨some 0, false, false, []⟩ = .ok j ∧
      Valid j = true ∧ j.fromReaderStorage = true ∧
      Key scenarioList j = .ok (some [99]) ∧ j.currentKey = [99] ∧
      j.iterator = some 0 :=
  C15_next_jumps_through_skip_entry scenarioList scenarioData ⟨some 0, false, false, []⟩
    [97] [99] (by decide) (by decide)

/-- The ways one call of `Next` can go, by the branch of the source it
takes. -/
theorem nextLoop_cases (l : SkipList) (rd : ReaderData) (fuel : Nat) (i : ReaderIterator) :
    (curKey l i = none ∧ nextLoop l rd (fuel + 1) i = .panic) ∨
    (∃ K D, curKey l i = some K ∧ rd.prevKeysOfDeletedKeys K = some D ∧
      nextLoop l rd (fuel + 1) i =
        .ok { i with currentKey := D, valid := true, fromReaderStorage := true }) ∨
    (∃ K, curKey l i = some K ∧ rd.prevKeysOfDeletedKeys K = none ∧
      rest l i.iterator = [] ∧
      nextLoop l rd (fuel + 1) i = .ok { i with valid := false }) ∨
    (∃ K q e es, curKey l i = some K ∧ rd.prevKeysOfDeletedKeys K = none ∧
      rest l i.iterator = e :: es ∧ iterNext l i.iterator = (some q, true) ∧
      l[q]? = some e ∧ rest l (some q) = es ∧
      ((rd.valueMap e.1 = none ∧
          nextLoop l rd (fuel + 1) i =
            .ok { i with iterator := some q, valid := true, fromReaderStorage := false }) ∨
        (∃ r, rd.valueMap e.1 = some r ∧ (r.newentry || r.deleted) = false ∧
          nextLoop l rd (fuel + 1) i = .ok ⟨some q, true, true, e.1⟩) ∨
        (∃ r, rd.valueMap e.1 = some r ∧ (r.newentry || r.deleted) = true ∧
          nextLoop l rd (fuel + 1) i =
            nextLoop l rd fuel { i with iterator := some q }))) := by
  cases hK : curKey l i with
  | none =>
    have hK' : (if i.fromReaderStorage then some i.currentKey else iterKey l i.iterator)
        = none := hK
    exact Or.inl ⟨rfl, by simp only [nextLoop, hK']⟩
  | some K =>
    have hK' : (if i.fromReaderStorage then some i.currentKey else iterKey l i.iterator)
        = some K := hK
    cases hsk : rd.prevKeysOfDeletedKeys K with
    | some D =>
      exact Or.inr (Or.inl ⟨K, D, rfl, hsk, by simp only [nextLoop, hK', hsk]⟩)
    | none =>
      cases hr : rest l i.iterator with
      | nil =>
        refine Or.inr (Or.inr (Or.inl ⟨K, rfl, hsk, rfl, ?_⟩))
        simp only [nextLoop, hK', hsk, iterNext_of_rest_nil hr]
        rfl
      | cons e es =>
        obtain ⟨q, hq, hget, hrest'⟩ := iterNext_of_rest_cons hr
        have hkey : iterKey l (some q) = some e.1 := by simp [iterKey, hget]
        refine Or.inr (Or.inr (Or.inr ⟨K, q, e, es, rfl, hsk, rfl, hq, hget, hrest', ?_⟩))
        cases hv : rd.valueMap e.1 with
        | none =>
          refine Or.inl ⟨rfl, ?_⟩
          simp only [nextLoop, hK', hsk, hq, hkey, hv]
          rfl
        | some r =>
          by_cases hinv : (r.newentry || r.deleted) = true
          · refine Or.inr (Or.inr ⟨r, rfl, hinv, ?_⟩)
            simp only [nextLoop, hK', hsk, hq, hkey, hv, hinv]
            rfl
          · have hinv' : (r.newentry || r.deleted) = false := by simpa using hinv
            refine Or.inr (Or.inl ⟨r, rfl, hinv', ?_⟩)
            simp only [nextLoop, hK', hsk, hq, hkey, hv, hinv']
            rfl

theorem nextLoop_ne_outOfFuel (l : SkipList) (rd : ReaderData) (fuel : Nat)
    (i : ReaderIterator) (hfuel : (rest l i.iterator).length < fuel) :
    nextLoop l rd fuel i ≠ .outOfFuel := by
  induction fuel generalizing i with
  | zero => omega
  | succ fuel ih =>
    rcases nextLoop_cases l rd fuel i with ⟨_, h⟩ | ⟨K, D, _, _, h⟩ | ⟨K, _, _, _, h⟩ |
      ⟨K, q, e, es, _, _, hr, _, _, hrest', h⟩
    · rw [h]; simp
    · rw [h]; simp
    · rw [h]; simp
    · rcases h with ⟨_, h⟩ | ⟨r, _, _, h⟩ | ⟨r, _, _, h⟩
      · rw [h]; simp
      · rw [h]; simp
      · rw [h]
        apply ih
        show (rest l (some q)).length < fuel
        rw [hrest']
        rw [hr] at hfuel
        simp at hfuel
        omega

theorem nextLoop_fuel_mono (l : SkipList) (rd : ReaderData) (f : Nat) :
    ∀ (g : Nat) (i : ReaderIterator), f ≤ g → nextLoop l rd f i ≠ .outOfFuel →
      nextLoop l rd g i = nextLoop l rd f i := by
  induction f with
  | zero =>
    intro g i _ h
    exact absurd rfl h
  | succ f ih =>
    intro g i hle h
    obtain ⟨g, rfl⟩ : ∃ g', g = g' + 1 := ⟨g - 1, by omega⟩
    rcases nextLoop_cases l rd f i with ⟨hK, h1⟩ | ⟨K, D, hK, hsk, h1⟩ |
      ⟨K, hK, hsk, hr, h1⟩ | ⟨K, q, e, es, hK, hsk, hr, hq, hget, hrest', h1⟩
    · rcases nextLoop_cases l rd g i with ⟨_, h2⟩ | ⟨_, _, hK2, _⟩ | ⟨_, hK2, _⟩ |
        ⟨_, _, _, _, hK2, _⟩
      · rw [h1, h2]
      all_goals rw [hK] at hK2; exact absurd hK2 (by simp)
    · have hK' : (if i.fromReaderStorage then some i.currentKey else iterKey l i.iterator)
          = some K := hK
      rw [h1]
      simp only [nextLoop, hK', hsk]
    · have hK' : (if i.fromReaderStorage then some i.currentKey else iterKey l i.iterator)
          = some K := hK
      rw [h1]
      simp only [nextLoop, hK', hsk, iterNext_of_rest_nil hr]
      rfl
    · have hK' : (if i.fromReaderStorage then some i.currentKey else iterKey l i.iterator)
          = some K := hK
      have hkey : iterKey l (some q) = some e.1 := by simp [iterKey, hget]
      rcases h1 with ⟨hv, h1⟩ | ⟨r, hv, hinv, h1⟩ | ⟨r, hv, hinv, h1⟩
      · rw [h1]
        simp only [nextLoop, hK', hsk, hq, hkey, hv]
        rfl
      · rw [h1]
        simp only [nextLoop, hK', hsk, hq, hkey, hv, hinv]
        rfl
      · rw [h1] at h ⊢
        have hstep : nextLoop l rd (g + 1) i =
            nextLoop l rd g { i with iterator := some q } := by
          simp only [nextLoop, hK', hsk, hq, hkey, hv, hinv]
          rfl
        rw [hstep]
        exact ih g _ (by omega) h

/-- C17: `Next()` terminates.  One unit of fuel stands for one call of the
function, so a run that does not exhaust `fuel` makes fewer than `fuel`
recursive calls: with one unit more than the number of container entries after
the position of the container iterator the run is not out of fuel, and it is
the outcome of `Next`. -/
theorem C17_next_terminates (l : SkipList) (rd : ReaderData) (i : ReaderIterator)
    (fuel : Nat) (hfuel : (rest l i.iterator).length < fuel) :
    nextLoop l rd fuel i ≠ .outOfFuel ∧ Next l rd i ≠ .outOfFuel ∧
      nextLoop l rd fuel i = Next l rd i := by
  have h1 := nextLoop_ne_outOfFuel l rd fuel i hfuel
  have h2 := nextLoop_ne_outOfFuel l rd (l.length + 1) i
    (Nat.lt_succ_of_le (rest_length_le l i.iterator))
  refine ⟨h1, h2, ?_⟩
  rcases Nat.le_total fuel (l.length + 1) with hle | hle
  · exact (nextLoop_fuel_mono l rd fuel (l.length + 1) i hle h1).symm
  · exact nextLoop_fuel_mono l rd (l.length + 1) fuel i hle h2

/-- C17 at a concrete input: in the scenario, from the state that exposes `c`
with the container iterator on `a`, one entry (`b`, skipped) lies after the
position and two units of fuel are enough. -/
theorem C17_next_terminates_witness :
    nextLoop scenarioList scenarioData 2 ⟨some 0, true, true, [99]⟩ ≠ .outOfFuel ∧
      Next scenarioList scenarioData ⟨some 0, true, true, [99]⟩ ≠ .outOfFuel ∧
      nextLoop scenarioList scenarioData 2 ⟨some 0, true, true, [99]⟩ =
        Next scenarioList scenarioData ⟨some 0, true, true, [99]⟩ :=
  C17_next_terminates scenarioList scenarioData ⟨some 0, true, true, [99]⟩ 2 (by decide)

theorem nextLoop_at_end {l : SkipList} {rd : ReaderData} {i : ReaderIterator}
    {K : Str} (fuel : Nat) (hK : curKey l i = some K)
    (hsk : rd.prevKeysOfDeletedKeys K = none) (hrest : rest l i.iterator = []) :
    nextLoop l rd (fuel + 1) i = .ok { i with valid := false } := by
  have hK' : (if i.fromReaderStorage then some i.currentKey else iterKey l i.iterator)
      = some K := hK
  simp only [nextLoop, hK', hsk, iterNext_of_rest_nil hrest]
  rfl

/-- A call of `Next` that leaves the iterator invalid leaves it in a state
that every further call of `Next` returns unchanged. -/
theorem nextLoop_invalid_fixed (l : SkipList) (rd : ReaderData) (fuel : Nat) :
    ∀ (i j : ReaderIterator), nextLoop l rd fuel i = .ok j → j.valid = false →
      ∀ g, nextLoop l rd (g + 1) j = .ok j := by
  induction fuel with
  | zero =>
    intro i j h
    simp [nextLoop] at h
  | succ fuel ih =>
    intro i j h hv g
    rcases nextLoop_cases l rd fuel i with ⟨_, h1⟩ | ⟨K, D, _, _, h1⟩ |
      ⟨K, hK, hsk, hr, h1⟩ | ⟨K, q, e, es, _, _, _, _, _, _, h1⟩
    · rw [h1] at h
      simp at h
    · rw [h1] at h
      injection h with h
      subst h
      simp at hv
    · rw [h1] at h
      injection h with h
      subst h
      exact nextLoop_at_end (i := { i with valid := false }) g hK hsk hr
    · rcases h1 with ⟨_, h1⟩ | ⟨r, _, _, h1⟩ | ⟨r, _, _, h1⟩
      · rw [h1] at h
        injection h with h
        subst h
        simp at hv
      · rw [h1] at h
        injection h with h
        subst h
        simp at hv
      · rw [h1] at h
        exact ih _ j h hv g

/-- C13: when `Next()` returns and leaves the iterator invalid, every further
`Next()` returns and leaves it invalid as well (the state does not change any
more), for any number of additional calls. -/
theorem C13_end_of_iteration_is_terminal (l : SkipList) (rd : ReaderData)
    (s t : ReaderIterator) (hnext : Next l rd s = .ok t) (hinv : Valid t = false)
    (n : Nat) :
    ∃ u, nextTimes l rd n (.ok t) = .ok u ∧ Valid u = false ∧ u = t := by
  refine ⟨t, ?_, hinv, rfl⟩
  induction n with
  | zero => rfl
  | succ n ih =>
    have hfix : Next l rd t = .ok t :=
      nextLoop_invalid_fixed l rd (l.length + 1) s t hnext hinv l.length
    simp only [nextTimes, hfix]
    exact ih

/-- C13 at a concrete input: in the scenario, `Next()` from the state that
exposes `c` skips `b` and reaches the end; three more calls change nothing. -/
theorem C13_end_of_iteration_is_terminal_witness :
    ∃ u, nextTimes scenarioList scenarioData 3 (.ok ⟨some 1, false, true, [99]⟩) = .ok u ∧
      Valid u = false ∧ u = ⟨some 1, false, true, [99]⟩ :=
  C13_end_of_iteration_is_terminal scenarioList scenarioData ⟨some 0, true, true, [99]⟩
    ⟨some 1, false, true, [99]⟩ (by decide) rfl 3

theorem iterNext_some_index {l : SkipList} {p q : Nat}
    (h : iterNext l (some p) = (some q, true)) : q = p + 1 := by
  simp only [iterNext] at h
  by_cases hlt : p + 1 < l.length
  · simp only [hlt, if_true] at h
    injection h with h _
    injection h with h
    exact h.symm
  · simp [hlt] at h

/-- From the container index `p`, when no key that `Next` looks up has a skip
entry, `Next` stops on the first index after `p` whose key is visible, or
leaves the iterator invalid when there is none. -/
theorem nextLoop_lands_on_visible {l : SkipList} {rd : ReaderData}
    (hsk : ∀ e ∈ l, rd.prevKeysOfDeletedKeys e.1 = none) (fuel : Nat) :
    ∀ (i : ReaderIterator) (p : Nat), i.iterator = some p →
      (∃ K, curKey l i = some K ∧ rd.prevKeysOfDeletedKeys K = none) →
      (rest l i.iterator).length < fuel →
      ∃ j, nextLoop l rd fuel i = .ok j ∧
        ((∃ q e, p < q ∧ l[q]? = some e ∧ visible rd e.1 = true ∧
            (∀ m x, p < m → m < q → l[m]? = some x → visible rd x.1 = false) ∧
            j.iterator = some q ∧ Valid j = true ∧ Key l j = .ok (some e.1) ∧
            Value l rd j = .ok (some (snapshotValue rd e))) ∨
          ((∀ m x, p < m → l[m]? = some x → visible rd x.1 = false) ∧
            Valid j = false)) := by
  induction fuel with
  | zero => intro i p _ _ h; omega
  | succ fuel ih =>
    intro i p hp hcur hfuel
    obtain ⟨K0, hK0, hsk0⟩ := hcur
    rcases nextLoop_cases l rd fuel i with ⟨hK, _⟩ | ⟨K, D, hK, hskK, _⟩ |
      ⟨K, _, _, hr, h1⟩ | ⟨K, q, e, es, hK, _, hr, hq, hget, hrest', h1⟩
    · rw [hK0] at hK
      exact absurd hK (by simp)
    · rw [hK0] at hK
      injection hK with hK
      subst hK
      rw [hsk0] at hskK
      exact absurd hskK (by simp)
    · refine ⟨_, h1, Or.inr ⟨?_, rfl⟩⟩
      intro m x hm hx
      rw [hp] at hr
      have hle : l.length ≤ p + 1 := List.drop_eq_nil_iff.1 hr
      obtain ⟨hlt, _⟩ := List.getElem?_eq_some.1 hx
      omega
    · rw [hp] at hq
      have hqp : q = p + 1 := iterNext_some_index hq
      subst hqp
      have hbetween : ∀ m x, p < m → m < p + 1 → l[m]? = some x →
          visible rd x.1 = false := by
        intro m x h1 h2
        omega
      rcases h1 with ⟨hv, h1⟩ | ⟨r, hv, hinv, h1⟩ | ⟨r, hv, hinv, h1⟩
      · refine ⟨_, h1, Or.inl ⟨p + 1, e, by omega, hget, by simp [visible, hv], hbetween,
          rfl, rfl, ?_, ?_⟩⟩
        · simp [Key, iterKey, hget]
        · simp [Value, iterValue, hget, snapshotValue, hv]
      · refine ⟨_, h1, Or.inl ⟨p + 1, e, by omega, hget, by simp [visible, hv, hinv],
          hbetween, rfl, rfl, ?_, ?_⟩⟩
        · simp [Key]
        · simp [Value, hv, snapshotValue]
      · have hvis : visible rd e.1 = false := by simp [visible, hv, hinv]
        have hcur' : ∃ K', curKey l { i with iterator := some (p + 1) } = some K' ∧
            rd.prevKeysOfDeletedKeys K' = none := by
          by_cases hf : i.fromReaderStorage = true
          · refine ⟨K0, ?_, hsk0⟩
            simp only [curKey, hf, if_true] at hK0 ⊢
            exact hK0
          · have hf' : i.fromReaderStorage = false := by simpa using hf
            exact ⟨e.1, by simp [curKey, hf', iterKey, hget],
              hsk e (List.getElem?_mem hget)⟩
        have hlen : (rest l (some (p + 1))).length < fuel := by
          rw [hrest']
          rw [hr] at hfuel
          simp at hfuel
          omega
        obtain ⟨j, hj, hres⟩ := ih { i with iterator := some (p + 1) } (p + 1) rfl hcur' hlen
        refine ⟨j, by rw [h1]; exact hj, ?_⟩
        rcases hres with ⟨q, x, hq1, hq2, hq3, hq4, hq5⟩ | ⟨hall, hjv⟩
        · refine Or.inl ⟨q, x, by omega, hq2, hq3, ?_, hq5⟩
          intro m y hm1 hm2 hy
          by_cases hmp : m = p + 1
          · subst hmp
            rw [hget] at hy
            injection hy with hy
            subst hy
            exact hvis
          · exact hq4 m y (by omega) hm2 hy
        · refine Or.inr ⟨?_, hjv⟩
          intro m y hm hy
          by_cases hmp : m = p + 1
          · subst hmp
            rw [hget] at hy
            injection hy with hy
            subst hy
            exact hvis
          · exact hall m y (by omega) hy

/-- C16: over a sorted container, for an overlay whose skip map has no entry
for the current key or for any container key, and a state positioned at the
container index `p`, `Next()` returns and leaves the container at the smallest
index `q > p` whose key has either no overlay record or a record with both
`newentry` and `deleted` unset; the iterator is then valid, `Key()` is that
key and `Value()` is the value of the overlay record if there is one and the
container's value otherwise; when there is no such `q` the iterator is
invalid. -/
theorem C16_next_advances_to_next_visible (l : SkipList) (rd : ReaderData)
    (i : ReaderIterator) (p : Nat) (hs : Sorted l) (hp : i.iterator = some p)
    (hlt : p < l.length)
    (hskcur : ∀ K, curKey l i = some K → rd.prevKeysOfDeletedKeys K = none)
    (hskl : ∀ e ∈ l, rd.prevKeysOfDeletedKeys e.1 = none) :
    ∃ j, Next l rd i = .ok j ∧
      ((∃ q e, p < q ∧ l[q]? = some e ∧ visible rd e.1 = true ∧
          (∀ m x, p < m → m < q → l[m]? = some x → visible rd x.1 = false) ∧
          j.iterator = some q ∧ Valid j = true ∧ Key l j = .ok (some e.1) ∧
          Value l rd j = .ok (some (snapshotValue rd e))) ∨
        ((∀ m x, p < m → l[m]? = some x → visible rd x.1 = false) ∧
          Valid j = false)) := by
  have _ := hs
  have hcur : ∃ K, curKey l i = some K ∧ rd.prevKeysOfDeletedKeys K = none := by
    by_cases hf : i.fromReaderStorage = true
    · have : curKey l i = some i.currentKey := by simp [curKey, hf]
      exact ⟨_, this, hskcur _ this⟩
    · have hf' : i.fromReaderStorage = false := by simpa using hf
      have : curKey l i = some l[p].1 := by
        simp [curKey, hf', iterKey, hp, List.getElem?_eq_getElem hlt]
      exact ⟨_, this, hskcur _ this⟩
  exact nextLoop_lands_on_visible hskl (l.length + 1) i p hp hcur
    (Nat.lt_succ_of_le (rest_length_le l i.iterator))

/-- C16 at a concrete input: from `a` in the container `a`, `b`, `c` whose key
`b` is a new entry. -/
theorem C16_next_advances_to_next_visible_witness :
    ∃ j, Next newMiddleList newMiddleData ⟨some 0, true, false, []⟩ = .ok j ∧
      ((∃ q e, 0 < q ∧ newMiddleList[q]? = some e ∧ visible newMiddleData e.1 = true ∧
          (∀ m x, 0 < m → m < q → newMiddleList[m]? = some x →
            visible newMiddleData x.1 = false) ∧
          j.iterator = some q ∧ Valid j = true ∧ Key newMiddleList j = .ok (some e.1) ∧
          Value newMiddleList newMiddleData j = .ok (some (snapshotValue newMiddleData e))) ∨
        ((∀ m x, 0 < m → newMiddleList[m]? = some x → visible newMiddleData x.1 = false) ∧
          Valid j = false)) :=
  C16_next_advances_to_next_visible newMiddleList newMiddleData ⟨some 0, true, false, []⟩ 0
    (by decide) rfl (by decide) (fun _ _ => rfl) (fun _ _ => rfl)

/-- What holds of the state that `Next` returns: a container-sourced position
stands on a key without overlay record, an overlay-sourced one on a skip
target or on a key whose record has `newentry` and `deleted` unset. -/
theorem nextLoop_sources (l : SkipList) (rd : ReaderData) (fuel : Nat) :
    ∀ (i j : ReaderIterator), nextLoop l rd fuel i = .ok j →
      (j.valid = true → j.fromReaderStorage = false →
        ∃ e, (∃ q, j.iterator = some q ∧ l[q]? = some e) ∧ rd.valueMap e.1 = none) ∧
      (j.valid = true → j.fromReaderStorage = true →
        (∃ K, rd.prevKeysOfDeletedKeys K = some j.currentKey) ∨
        ∃ r, rd.valueMap j.currentKey = some r ∧ r.newentry = false ∧
          r.deleted = false) := by
  induction fuel with
  | zero =>
    intro i j h
    simp [nextLoop] at h
  | succ fuel ih =>
    intro i j h
    rcases nextLoop_cases l rd fuel i with ⟨_, h1⟩ | ⟨K, D, _, hsk, h1⟩ |
      ⟨K, _, _, _, h1⟩ | ⟨K, q, e, es, _, _, _, _, hget, _, h1⟩
    · rw [h1] at h
      simp at h
    · rw [h1] at h
      injection h with h
      subst h
      exact ⟨fun _ hf => by simp at hf, fun _ _ => Or.inl ⟨K, hsk⟩⟩
    · rw [h1] at h
      injection h with h
      subst h
      exact ⟨fun hv => by simp at hv, fun hv => by simp at hv⟩
    · rcases h1 with ⟨hv, h1⟩ | ⟨r, hv, hinv, h1⟩ | ⟨r, _, _, h1⟩
      · rw [h1] at h
        injection h with h
        subst h
        exact ⟨fun _ _ => ⟨e, ⟨q, rfl, hget⟩, hv⟩, fun _ hf => by simp at hf⟩
      · rw [h1] at h
        injection h with h
        subst h
        refine ⟨fun _ hf => by simp at hf, fun _ _ => Or.inr ⟨r, hv, ?_, ?_⟩⟩
        · cases hn : r.newentry with
          | false => rfl
          | true => simp [hn] at hinv
        · cases hd : r.deleted with
          | false => rfl
          | true => simp [hd] at hinv
      · rw [h1] at h
        exact ih _ j h

/-- C20: when `Next()` returns with the iterator valid and not reading from the
overlay, the overlay has no record for the container iterator's current key,
and `Value()` is the container's value of that key; when it returns with the
iterator valid and reading from the overlay, `currentKey` is a skip target or
a key whose record has both `newentry` and `deleted` unset. -/
theorem C20_sources_after_next (l : SkipList) (rd : ReaderData) (i j : ReaderIterator)
    (hnext : Next l rd i = .ok j) :
    (Valid j = true → j.fromReaderStorage = false →
      ∃ e, iterKey l j.iterator = some e.1 ∧ rd.valueMap e.1 = none ∧ e ∈ l ∧
        Key l j = .ok (some e.1) ∧ Value l rd j = .ok (some e.2)) ∧
    (Valid j = true → j.fromReaderStorage = true →
      (∃ K, rd.prevKeysOfDeletedKeys K = some j.currentKey) ∨
      ∃ r, rd.valueMap j.currentKey = some r ∧ r.newentry = false ∧
        r.deleted = false) := by
  obtain ⟨h1, h2⟩ := nextLoop_sources l rd (l.length + 1) i j hnext
  refine ⟨?_, h2⟩
  intro hv hf
  obtain ⟨e, ⟨q, hq, hget⟩, hnone⟩ := h1 hv hf
  have hv' : j.valid = true := hv
  refine ⟨e, by simp [iterKey, hq, hget], hnone, List.getElem?_mem hget, ?_, ?_⟩
  · simp [Key, hv', hf, iterKey, hq, hget]
  · simp [Value, hv', hf, iterValue, hq, hget]

/-- C20 at concrete inputs: `Next()` from `a` in the container `a`, `b`, `c`
whose `b` is a new entry lands on the unmodified `c`; `Next()` from `a` in the
scenario jumps to the skip target `c`. -/
theorem C20_sources_after_next_witness :
    (∃ e, iterKey newMiddleList (some 2) = some e.1 ∧
        newMiddleData.valueMap e.1 = none ∧ e ∈ newMiddleList ∧
        Key newMiddleList ⟨some 2, true, false, []⟩ = .ok (some e.1) ∧
        Value newMiddleList newMiddleData ⟨some 2, true, false, []⟩ = .ok (some e.2)) ∧
    ((∃ K, scenarioData.prevKeysOfDeletedKeys K = some [99]) ∨
      ∃ r, scenarioData.valueMap [99] = some r ∧ r.newentry = false ∧
        r.deleted = false) :=
  ⟨(C20_sources_after_next newMiddleList newMiddleData ⟨some 0, true, false, []⟩
      ⟨some 2, true, false, []⟩ (by decide)).1 rfl rfl,
   (C20_sources_after_next scenarioList scenarioData ⟨some 0, true, false, []⟩
      ⟨some 0, true, true, [99]⟩ (by decide)).2 rfl rfl⟩

/-! ## The overlay record of an overlay-sourced state -/

theorem Seek_recordPresent (l : SkipList) (rd : ReaderData) (fuel : Nat)
    (i j : ReaderIterator) (k : Str) (h : Seek l rd fuel i k = .ok j) :
    recordPresent rd j = true := by
  cases hr : rd.valueMap k with
  | none =>
    simp only [Seek, hr] at h
    injection h with h
    subst h
    simp [recordPresent]
  | some r =>
    simp only [Seek, hr] at h
    by_cases hn : r.newentry = true
    · simp only [hn, if_true] at h
      injection h with h
      subst h
      simp [recordPresent]
    · have hn' : r.newentry = false := by simpa using hn
      simp only [hn', Bool.false_eq_true, if_false] at h
      by_cases hf : r.firstValue = true
      · simp only [hf, if_true] at h
        injection h with h
        subst h
        simp [recordPresent, hr]
      · have hf' : r.firstValue = false := by simpa using hf
        simp only [hf', Bool.false_eq_true, if_false] at h
        by_cases hd : r.deleted = true
        · simp only [hd, if_true] at h
          cases hw : walkPrevKey rd fuel r.prevKey [] with
          | none => simp [hw] at h
          | some a =>
            simp only [hw] at h
            injection h with h
            subst h
            simp [recordPresent, hr]
        · have hd' : r.deleted = false := by simpa using hd
          simp only [hd', Bool.false_eq_true, if_false] at h
          injection h with h
          subst h
          simp [recordPresent, hr]

theorem nextLoop_recordPresent (l : SkipList) (rd : ReaderData)
    (hskip : ∀ K D, rd.prevKeysOfDeletedKeys K = some D → (rd.valueMap D).isSome = true)
    (fuel : Nat) :
    ∀ (i j : ReaderIterator), nextLoop l rd fuel i = .ok j → recordPresent rd j = true := by
  induction fuel with
  | zero =>
    intro i j h
    simp [nextLoop] at h
  | succ fuel ih =>
    intro i j h
    rcases nextLoop_cases l rd fuel i with ⟨_, h1⟩ | ⟨K, D, _, hsk, h1⟩ |
      ⟨K, _, _, _, h1⟩ | ⟨K, q, e, es, _, _, _, _, _, _, h1⟩
    · rw [h1] at h
      simp at h
    · rw [h1] at h
      injection h with h
      subst h
      simp [recordPresent, hskip K D hsk]
    · rw [h1] at h
      injection h with h
      subst h
      simp [recordPresent]
    · rcases h1 with ⟨_, h1⟩ | ⟨r, hv, _, h1⟩ | ⟨r, _, _, h1⟩
      · rw [h1] at h
        injection h with h
        subst h
        simp [recordPresent]
      · rw [h1] at h
        injection h with h
        subst h
        simp [recordPresent, hv]
      · rw [h1] at h
        exact ih _ j h

theorem run_recordPresent (l : SkipList) (rd : ReaderData)
    (hskip : ∀ K D, rd.prevKeysOfDeletedKeys K = some D → (rd.valueMap D).isSome = true)
    (fuel : Nat) (cs : List Call) :
    ∀ (i j : ReaderIterator), recordPresent rd i = true → run l rd fuel i cs = .ok j →
      recordPresent rd j = true := by
  induction cs with
  | nil =>
    intro i j hi h
    simp only [run] at h
    injection h with h
    subst h
    exact hi
  | cons c cs ih =>
    intro i j _ h
    simp only [run] at h
    cases hc : call l rd fuel i c with
    | panic => simp [hc] at h
    | outOfFuel => simp [hc] at h
    | ok m =>
      simp only [hc] at h
      have hm : recordPresent rd m = true := by
        cases c with
        | seekFirst => exact Seek_recordPresent l rd fuel i m [0] hc
        | seek k => exact Seek_recordPresent l rd fuel i m k hc
        | next => exact nextLoop_recordPresent l rd hskip (l.length + 1) i m hc
      exact ih m j hm h

/-- C19: for an overlay in which every value of `prevKeysOfDeletedKeys` has a
`valueMap` record, the predicate "valid and `fromReaderStorage` imply that
`valueMap` has a record for `currentKey`" holds after every `Seek` and
`SeekFirst`, holds after every `Next` (so `Next` preserves it), and holds in
every state reached from a fresh iterator by a sequence of `SeekFirst`, `Seek`
and `Next` calls; in such a state that is valid and reads from the overlay,
`Current()` and `Value()` return the key and the value of that record instead
of dereferencing a missing one. -/
theorem C19_overlay_state_has_record (l : SkipList) (rd : ReaderData)
    (hskip : ∀ K D, rd.prevKeysOfDeletedKeys K = some D → (rd.valueMap D).isSome = true) :
    (∀ fuel i k j, Seek l rd fuel i k = .ok j → recordPresent rd j = true) ∧
    (∀ fuel i j, SeekFirst l rd fuel i = .ok j → recordPresent rd j = true) ∧
    (∀ i j, Next l rd i = .ok j → recordPresent rd j = true) ∧
    (∀ fuel cs j, run l rd fuel newReaderIterator cs = .ok j →
      recordPresent rd j = true ∧
      (j.valid = true → j.fromReaderStorage = true →
        ∃ r, rd.valueMap j.currentKey = some r ∧
          Current l rd j = .ok (some j.currentKey, some r.value, true) ∧
          Value l rd j = .ok (some r.value))) := by
  refine ⟨fun fuel i k j h => Seek_recordPresent l rd fuel i j k h,
    fun fuel i j h => Seek_recordPresent l rd fuel i j [0] h,
    fun i j h => nextLoop_recordPresent l rd hskip (l.length + 1) i j h, ?_⟩
  intro fuel cs j h
  have hj := run_recordPresent l rd hskip fuel cs newReaderIterator j rfl h
  refine ⟨hj, ?_⟩
  intro hv hf
  simp only [recordPresent, hv, hf, Bool.and_self, Bool.not_true, Bool.false_or] at hj
  obtain ⟨r, hr⟩ := Option.isSome_iff_exists.1 hj
  exact ⟨r, hr, by simp [Current, hv, hf, hr], by simp [Value, hv, hf, hr]⟩

/-- C19 at a concrete input: the scenario, whose only skip target `c` has a
record; the run `SeekFirst`, `Next` reaches the overlay-sourced state on
`c`. -/
theorem C19_overlay_state_has_record_witness :
    recordPresent scenarioData ⟨some 0, true, true, [99]⟩ = true ∧
      ((⟨some 0, true, true, [99]⟩ : ReaderIterator).valid = true →
        (⟨some 0, true, true, [99]⟩ : ReaderIterator).fromReaderStorage = true →
        ∃ r, scenarioData.valueMap (⟨some 0, true, true, [99]⟩ : ReaderIterator).currentKey
            = some r ∧
          Current scenarioList scenarioData ⟨some 0, true, true, [99]⟩ =
            .ok (some (⟨some 0, true, true, [99]⟩ : ReaderIterator).currentKey,
              some r.value, true) ∧
          Value scenarioList scenarioData ⟨some 0, true, true, [99]⟩ =
            .ok (some r.value)) :=
  (C19_overlay_state_has_record scenarioList scenarioData
    (by
      intro K D h
      by_cases hK : K = [97]
      · subst hK
        have hD : D = [99] := by simpa [scenarioData] using h.symm
        subst hD
        decide
      · simp [scenarioData, hK] at h)).2.2.2 0 [Call.seekFirst, Call.next]
    ⟨some 0, true, true, [99]⟩ (by decide)

/-! ## The walk over `prevKey` -/

/-- The loop of `Seek` over a chain of `prevKey` links ends with the last key
of the chain, within one step per key of the chain and one more. -/
theorem walkPrevKey_of_chain (rd : ReaderData) (ks : List Str) :
    ∀ (k x : Str) (fuel : Nat), isPrevChain rd k ks = true → ks.length + 1 ≤ fuel →
      ∃ root, ks.getLast? = some root ∧ root ≠ [] ∧
        walkPrevKey rd fuel k x = some root := by
  induction ks with
  | nil =>
    intro k x fuel h
    simp [isPrevChain] at h
  | cons y ys ih =>
    intro k x fuel h hfuel
    simp only [isPrevChain, Bool.and_eq_true, decide_eq_true_eq] at h
    obtain ⟨⟨hy, hk⟩, hrest⟩ := h
    subst hy
    obtain ⟨f, rfl⟩ : ∃ f, fuel = f + 2 := ⟨fuel - 2, by simp at hfuel; omega⟩
    cases hv : rd.valueMap y with
    | none =>
      simp only [hv, decide_eq_true_eq] at hrest
      subst hrest
      exact ⟨y, rfl, hk, by simp [walkPrevKey, hk, hv]⟩
    | some r =>
      simp only [hv] at hrest
      by_cases hp : r.prevKey = []
      · simp only [hp, if_true, decide_eq_true_eq] at hrest
        subst hrest
        exact ⟨y, rfl, hk, by simp [walkPrevKey, hk, hv, hp]⟩
      · simp only [hp, if_false] at hrest
        obtain ⟨root, hlast, hroot, hwalk⟩ := ih r.prevKey y (f + 1) hrest
          (by simp at hfuel; omega)
        refine ⟨root, ?_, hroot, ?_⟩
        · cases ys with
          | nil => simp at hlast
          | cons z zs => simpa [List.getLast?_cons_cons] using hlast
        · rw [← hwalk]
          simp [walkPrevKey, hk, hv]

/-- C18: `Seek(target)` on a record that is deleted and neither `newentry`
nor `firstValue`.  When the `prevKey` of the record is empty, `Seek` returns
having sought the container iterator to the empty key.  When the `prevKey`
links from the target form a chain `ks` that ends, after finitely many steps,
at a key with an empty `prevKey` or without overlay record (the links of every
record are followed, deleted or not), `Seek` returns having sought the
container iterator to the last key of the chain, its root.  In both cases the
iterator is valid and exposes the target from the overlay. -/
theorem C18_seek_deleted_walks_to_root (l : SkipList) (rd : ReaderData) (fuel : Nat)
    (i : ReaderIterator) (target : Str) (r : OverlayRecord)
    (hr : rd.valueMap target = some r) (hn : r.newentry = false)
    (hf : r.firstValue = false) (hd : r.deleted = true) :
    (r.prevKey = [] → 1 ≤ fuel →
      Seek l rd fuel i target =
        .ok ⟨(iterSeek l i.iterator []).1, true, true, target⟩) ∧
    (∀ ks, isPrevChain rd r.prevKey ks = true → ks.length + 1 ≤ fuel →
      ∃ root, ks.getLast? = some root ∧ root ≠ [] ∧
        Seek l rd fuel i target =
          .ok ⟨(iterSeek l i.iterator root).1, true, true, target⟩) := by
  refine ⟨?_, ?_⟩
  · intro hp hfuel
    obtain ⟨f, rfl⟩ : ∃ f, fuel = f + 1 := ⟨fuel - 1, by omega⟩
    simp [Seek, hr, hn, hf, hd, hp, walkPrevKey]
  · intro ks hchain hfuel
    obtain ⟨root, hlast, hroot, hwalk⟩ := walkPrevKey_of_chain rd ks r.prevKey [] fuel
      hchain hfuel
    exact ⟨root, hlast, hroot, by simp [Seek, hr, hn, hf, hd, hwalk]⟩

/-- C18 at a concrete input: the chain from the deleted key `d` passes through
`c`, whose record is not deleted, and `b`, and ends at `a`; `Seek("d")` seeks
the container `a`, `e` to the root `a`, not to the predecessor `c`. -/
theorem C18_seek_deleted_walks_to_root_witness :
    ∃ root, [[99], [98], [97]].getLast? = some root ∧ root ≠ [] ∧
      Seek runList mixedChainData 4 newReaderIterator [100] =
        .ok ⟨(iterSeek runList newReaderIterator.iterator root).1, true, true, [100]⟩ :=
  (C18_seek_deleted_walks_to_root runList mixedChainData 4 newReaderIterator [100]
    (deletedRecord [52] [99]) (by decide) (by decide) (by decide) (by decide)).2
    [[99], [98], [97]] (by decide) (by decide)

/-! ## Seek on a key visible in the snapshot -/

theorem walkPrevKey_cycle (fuel : Nat) :
    ∀ x, walkPrevKey cycleData fuel [98] x = none ∧
      walkPrevKey cycleData fuel [99] x = none := by
  induction fuel with
  | zero => intro x; exact ⟨rfl, rfl⟩
  | succ fuel ih =>
    intro x
    refine ⟨?_, ?_⟩
    · have h : walkPrevKey cycleData (fuel + 1) [98] x =
          walkPrevKey cycleData fuel [99] [98] := by
        simp [walkPrevKey, cycleData, deletedRecord]
      rw [h]
      exact (ih [98]).2
    · have h : walkPrevKey cycleData (fuel + 1) [99] x =
          walkPrevKey cycleData fuel [98] [99] := by
        simp [walkPrevKey, cycleData, deletedRecord]
      rw [h]
      exact (ih [99]).1

theorem Seek_cycle_outOfFuel (fuel : Nat) :
    Seek gapList cycleData fuel newReaderIterator [99] = .outOfFuel := by
  have hv : cycleData.valueMap [99] = some (deletedRecord [51] [98]) := by
    simp [cycleData]
  simp [Seek, hv, deletedRecord, (walkPrevKey_cycle fuel []).1]

/-- C3, as stated, fails on an overlay whose `prevKey` links form a cycle: the
record of `c` has `newentry` unset (it is deleted, with `prevKey` `b`, and `b`
is deleted with `prevKey` `c`), yet `Seek("c")` never returns, whatever the
fuel of the loop over `prevKey`. -/
theorem C3_fails_on_prevKey_cycle :
    (cycleData.valueMap [99]).map (fun r => r.newentry) = some false ∧
    (¬ ∃ fuel, Seek gapList cycleData fuel newReaderIterator [99] ≠ .outOfFuel) ∧
    (¬ ∃ fuel j, Seek gapList cycleData fuel newReaderIterator [99] = .ok j) := by
  refine ⟨by decide, ?_, ?_⟩
  · rintro ⟨fuel, h⟩
    exact h (Seek_cycle_outOfFuel fuel)
  · rintro ⟨fuel, j, h⟩
    rw [Seek_cycle_outOfFuel fuel] at h
    exact absurd h (by simp)

/-- C3 (amended): `Seek(k)` on a key visible in the snapshot, over a sorted
container.  (1) When the overlay has a record for `k` with `newentry` unset
and, in case the record is deleted and not `firstValue`, its `prevKey` is
empty or the `prevKey` links from it form a chain `ks` that ends after
finitely many steps at a key with an empty `prevKey` or without overlay
record, `Seek(k)` returns (within one loop step per key of the chain and one
more) with the iterator valid, `Key() = k` and `Value()` the value of the
record.  (2) When the overlay has no record for `k` and the container holds
`k` with value `v`, `Seek(k)` returns with the iterator valid, `Key() = k` and
`Value() = v`. -/
theorem C3_seek_visible_key (l : SkipList) (rd : ReaderData) (fuel : Nat)
    (i : ReaderIterator) (k : Str) (hs : Sorted l) :
    (∀ r ks, rd.valueMap k = some r → r.newentry = false →
      (r.firstValue = false → r.deleted = true →
        ks.length + 1 ≤ fuel ∧ (r.prevKey = [] ∨ isPrevChain rd r.prevKey ks = true)) →
      ∃ j, Seek l rd fuel i k = .ok j ∧ Valid j = true ∧ Key l j = .ok (some k) ∧
        Value l rd j = .ok (some r.value)) ∧
    (∀ v, rd.valueMap k = none → (k, v) ∈ l →
      ∃ j, Seek l rd fuel i k = .ok j ∧ Valid j = true ∧ Key l j = .ok (some k) ∧
        Value l rd j = .ok (some v)) := by
  refine ⟨?_, ?_⟩
  · intro r ks hr hn hchain
    by_cases hf : r.firstValue = true
    · refine ⟨⟨(iterSeek l i.iterator []).1, true, true, k⟩, ?_, rfl, ?_, ?_⟩
      · simp only [Seek, hr, hn, hf]; rfl
      · simp [Key]
      · simp [Value, hr]
    · have hf' : r.firstValue = false := by simpa using hf
      by_cases hd : r.deleted = true
      · obtain ⟨hfuel, hends⟩ := hchain hf' hd
        have hwalk : ∃ a, walkPrevKey rd fuel r.prevKey [] = some a := by
          rcases hends with hp | hc
          · obtain ⟨f, rfl⟩ : ∃ f, fuel = f + 1 := ⟨fuel - 1, by omega⟩
            exact ⟨[], by simp [walkPrevKey, hp]⟩
          · obtain ⟨root, _, _, hw⟩ := walkPrevKey_of_chain rd ks r.prevKey [] fuel hc hfuel
            exact ⟨root, hw⟩
        obtain ⟨a, ha⟩ := hwalk
        refine ⟨⟨(iterSeek l i.iterator a).1, true, true, k⟩, ?_, rfl, ?_, ?_⟩
        · simp only [Seek, hr, hn, hf', hd, ha]; rfl
        · simp [Key]
        · simp [Value, hr]
      · have hd' : r.deleted = false := by simpa using hd
        refine ⟨⟨(iterSeek l i.iterator k).1, true, true, k⟩, ?_, rfl, ?_, ?_⟩
        · simp only [Seek, hr, hn, hf', hd']; rfl
        · simp [Key]
        · simp [Value, hr]
  · intro v hnone hmem
    obtain ⟨p, hp⟩ := exists_get_of_mem hmem
    have hseek : iterSeek l i.iterator k = (some p, true) := by
      simp [iterSeek, seekFrom_of_get hs hp 0]
    refine ⟨⟨some p, true, false, i.currentKey⟩, ?_, rfl, ?_, ?_⟩
    · simp only [Seek, hnone, hseek]
    · simp [Key, iterKey, hp]
    · simp [Value, iterValue, hp]

/-- C3 at concrete inputs: `Seek("d")` on the deleted key `d` whose chain of
`prevKey` links is `c`, `b`, `a`, and `Seek("b")` over a container that holds
`b` unmodified. -/
theorem C3_seek_visible_key_witness :
    (∃ j, Seek runList mixedChainData 4 newReaderIterator [100] = .ok j ∧
        Valid j = true ∧ Key runList j = .ok (some [100]) ∧
        Value runList mixedChainData j = .ok (some [52])) ∧
    (∃ j, Seek scenarioList emptyData 0 newReaderIterator [98] = .ok j ∧
        Valid j = true ∧ Key scenarioList j = .ok (some [98]) ∧
        Value scenarioList emptyData j = .ok (some [50])) :=
  ⟨(C3_seek_visible_key runList mixedChainData 4 newReaderIterator [100] (by decide)).1
      (deletedRecord [52] [99]) [[99], [98], [97]] (by decide) (by decide)
      (fun _ _ => ⟨by decide, Or.inr (by decide)⟩),
   (C3_seek_visible_key scenarioList emptyData 0 newReaderIterator [98] (by decide)).2
      [50] rfl (by decide)⟩

end Inmem
